import Mathlib

/-!
Shallow embedding of the iresearch multi-level skip-list codec
(`skip_list.cpp`: `skip_writer` and `skip_reader`) together with proofs
about its behaviour.

Modelling conventions:
* byte streams are `List Nat` (each element a byte value `< 256`);
  `memory_output` buffers are growing `List Nat`s and `file_pointer()` is
  the list length; an `index_input` cursor is an absolute position `pos`
  into the shared byte list;
* `write_vlong` / `read_vlong` use the LEB128 encoding implemented in
  `store_utils` (low seven bits first, high bit marks continuation);
  `write_vint` uses the same encoding (it truncates the value to 32 bits
  in C++, which is exact for every level count that can occur below
  `2^32`, so the truncation is not written out here);
* machine integers are modelled as `Nat`; the sentinel
  `integer_traits<size_t>::const_max` used for a missing child pointer is
  kept literally as `UNDEFINED = 2^64 - 1`, and `doc_id_t` values are
  truncated to 32 bits where the C++ casts do so;
* fallible operations (failed stream reads, failed `assert`s — which
  abort a debug build and are undefined behaviour for the release
  accesses they guard) are modelled with `Option` / `Except`;
* the write/read callbacks and the `doc_id_t` sentinels live outside this
  translation unit (they belong to the postings-list codec); functions
  whose doc comment starts with `Modelled from the spec:` follow the
  specification's description of those external collaborators.
-/

/-- Structural worker for `writeVNat`; the fuel only bounds the number of
7-bit groups and any `fuel ≥ v` computes the full encoding (when the fuel
is zero the value is forced to be zero and the single byte emitted is
already correct). -/
def writeVNatAux : Nat → Nat → List Nat
  | 0, v => [v]
  | fuel + 1, v =>
    if v < 128 then [v] else (v % 128 + 128) :: writeVNatAux fuel (v / 128)

/-- LEB128 encoding of a natural number, as `store_utils` `write_vlong`:
emit the low seven bits (with the continuation bit set) while the value is
at least `0x80`, then the final byte. -/
def writeVNat (v : Nat) : List Nat := writeVNatAux v v

/-- Length in bytes of the LEB128 encoding. -/
def vlen (v : Nat) : Nat := (writeVNat v).length

/-- LEB128 decoding from the front of a byte list, as `store_utils`
`read_vlong`: returns the decoded value and the number of bytes consumed,
or `none` when the stream ends inside the encoding (the C++ stream throws
there). -/
def readVFrom : List Nat → Option (Nat × Nat)
  | [] => none
  | b :: rest =>
    if b < 128 then some (b, 1)
    else
      match readVFrom rest with
      | none => none
      | some (v, n) => some (b - 128 + 128 * v, n + 1)

/-- Read a vlong at byte position `pos` of `data`; returns the value and
the position just past the encoding. -/
def readV (data : List Nat) (pos : Nat) : Option (Nat × Nat) :=
  match readVFrom (data.drop pos) with
  | none => none
  | some (v, n) => some (v, pos + n)

/-- iresearch `math::log`: the number of times `base` divides into the
value (the floor of the base-`base` logarithm).  The C++ loop
`while (base <= value) { value /= base; ++res; }` does not terminate for
`base ≤ 1 ≤ value`; the `2 ≤ base` guard makes the translation total and
agrees with the source whenever the source terminates.  The fuel only
bounds the iteration count. -/
def irsLogAux : Nat → Nat → Nat → Nat
  | 0, _, _ => 0
  | fuel + 1, v, base =>
    if 2 ≤ base ∧ base ≤ v then irsLogAux fuel (v / base) base + 1 else 0

/-- Entry point for `math::log`: any `fuel ≥ v` computes the loop to
completion (at zero fuel the value is forced to be zero, where the result
is zero in both cases). -/
def irsLog (v base : Nat) : Nat := irsLogAux v v base

/-- Maximum number of skip levels needed to store `count` objects with
step `skip0` for level 0 and step multiplier `skipn` for the other levels
(file-local `max_levels` in `skip_list.cpp`). -/
def max_levels (skip0 skipn count : Nat) : Nat :=
  if skip0 < count then 1 + irsLog (count / skip0) skipn else 0

/-- Sentinel for a missing child pointer:
`integer_traits<size_t>::const_max`. -/
def UNDEFINED : Nat := 18446744073709551615

/-- Modelled from the spec: the external `doc_id_t` "end of list" sentinel
`type_limits<type_t::doc_id_t>::eof()` (the maximum of the 32-bit document
id domain); the defining header is not part of the sources. -/
def NO_MORE_DOCS : Nat := 4294967295

/-- Modelled from the spec: the external
`type_limits<type_t::doc_id_t>::invalid()` sentinel used for an
uninitialized document id mark; it compares below every valid target.
The defining header is not part of the sources. -/
def INVALID_DOC : Nat := 0

namespace skip_writer

/-- `skip_writer::prepare`: `max_levels = max(1, max_levels);`
`levels_.resize(min(max_levels, ::max_levels(skip_0_, skip_n_, count)))`.
The writer's state is the list of per-level `memory_output` buffers,
level 0 first. -/
def prepare (skip0 skipn maxLevels count : Nat) : List (List Nat) :=
  List.replicate (min (max 1 maxLevels) (max_levels skip0 skipn count)) []

/-- The `for` loop of `skip_writer::skip` over levels `1 .. n`: while the
running count is an exact multiple of `skipn` and levels remain, invoke
the write callback (`wcb num` is the byte string the callback appends for
level index `num`), record the offset after the payload as the next child,
append the previous child as a vlong, and divide the count. -/
def skipLoop (wcb : Nat → List Nat) (skipn : Nat) :
    Nat → Nat → Nat → List (List Nat) → List (List Nat)
  | _num, _count, _child, [] => []
  | num, count, child, l :: ls =>
    if count % skipn = 0 then
      let payload := l ++ wcb num
      (payload ++ writeVNat child) ::
        skipLoop wcb skipn (num + 1) (count / skipn) payload.length ls
    else l :: ls

/-- `skip_writer::skip(count)`: no-op unless `count` is a multiple of
`skip_0`; otherwise write level 0 through the callback, record its file
pointer as the first child offset, and run the loop over coarser levels.
`none` models the failing `assert(!levels_.empty())`. -/
def skip (wcb : Nat → List Nat) (skip0 skipn count : Nat) :
    List (List Nat) → Option (List (List Nat))
  | [] => none
  | l0 :: rest =>
    if count % skip0 ≠ 0 then some (l0 :: rest)
    else
      let b0 := l0 ++ wcb 0
      some (b0 :: skipLoop wcb skipn 1 (count / skip0) b0.length rest)

/-- The `for_each` of `skip_writer::flush` over the levels from the
coarsest non-empty one down to level 0: write each level's byte length as
a vlong followed by its bytes.  `none` models the failing
`assert(length)` on an empty emitted level. -/
def emitLevels : List (List Nat) → Option (List Nat)
  | [] => some []
  | b :: bs =>
    if b.length = 0 then none
    else
      match emitLevels bs with
      | none => none
      | some t => some (writeVNat b.length ++ b ++ t)

/-- `skip_writer::flush(out)`: find the first non-empty level from the
coarsest side, write the number of remaining levels as a vint, then emit
those levels from coarsest to finest. -/
def flush (levels : List (List Nat)) : Option (List Nat) :=
  let emitted := levels.reverse.dropWhile (fun l => l.length = 0)
  match emitLevels emitted with
  | none => none
  | some t => some (writeVNat emitted.length ++ t)

end skip_writer

/-- One `skip_reader::level`: a window `[lbegin, lend)` over the shared
input, an independent cursor `pos`, the most recently read child offset
(`UNDEFINED` when the level has no child), the stride `step`, the entries
skipped so far, and the most recently read document id.  `child`,
`skipped` and `doc` start from the in-class initializers of the header
(not among the sources); following the spec they start at `0`, `0` and
the invalid sentinel. -/
structure RLevel where
  pos : Nat
  lbegin : Nat
  lend : Nat
  child : Nat
  step : Nat
  skipped : Nat
  doc : Nat
deriving DecidableEq, Repr

instance : Inhabited RLevel := ⟨⟨0, 0, 0, 0, 0, 0, 0⟩⟩

/-- A loaded `skip_reader`: the shared underlying byte sequence, the two
stride parameters, and the levels ordered from coarsest (index 0) to
finest (last). -/
structure Reader where
  data : List Nat
  skip0 : Nat
  skipn : Nat
  levels : List RLevel
deriving DecidableEq, Repr

/-- Error taxonomy of `skip_reader::prepare`: `corrupted` is the
`index_error` thrown by `load_level` on a zero declared length, `ioFail`
is the stream's own end-of-input failure while reading a header field. -/
inductive PrepErr
  | corrupted
  | ioFail
deriving DecidableEq, Repr

instance {ε α : Type} [DecidableEq ε] [DecidableEq α] :
    DecidableEq (Except ε α) := fun a b =>
  match a, b with
  | .error x, .error y =>
    if h : x = y then isTrue (by rw [h]) else isFalse (by simp [h])
  | .ok x, .ok y =>
    if h : x = y then isTrue (by rw [h]) else isFalse (by simp [h])
  | .error _, .ok _ => isFalse (by simp)
  | .ok _, .error _ => isFalse (by simp)

namespace skip_reader

/-- `skip_reader::level::read_bytes(b, count)`: delegates to the
underlying stream with the count capped at
`std::min(size_t(end) - file_pointer(), count)`, where
`level::file_pointer()` is the window-relative `stream->file_pointer() -
begin`.  The underlying stream read returns the bytes available at the
cursor, up to the requested count.  Returns the bytes read and the level
with its cursor advanced. -/
def read_bytes (data : List Nat) (lv : RLevel) (count : Nat) :
    List Nat × RLevel :=
  let cap := min (lv.lend - (lv.pos - lv.lbegin)) count
  let bs := (data.drop lv.pos).take cap
  (bs, { lv with pos := lv.pos + bs.length })

/-- Modelled from the spec: the read callback supplied by the postings
reader.  It returns the "end of list" sentinel when the level's window is
exhausted, and otherwise reads the document id serialized at the skip
point as a vlong through the level's cursor (truncated to the 32-bit
`doc_id_t` domain).  `none` models an underlying stream failure. -/
def readCallback (data : List Nat) (_idx : Nat) (lv : RLevel) :
    Option (Nat × Nat) :=
  if lv.lend ≤ lv.pos then some (NO_MORE_DOCS, lv.pos)
  else
    match readV data lv.pos with
    | none => none
    | some (v, p) => some (v % 4294967296, p)

/-- `skip_reader::read_skip(level)`: invoke the read callback; when the
result is not the end sentinel and the level has a child pointer, read the
child offset as a vlong; store the document id and advance `skipped` by
the level's step. -/
def read_skip (data : List Nat) (idx : Nat) (lv : RLevel) : Option RLevel :=
  match readCallback data idx lv with
  | none => none
  | some (doc, p1) =>
    if doc ≠ NO_MORE_DOCS ∧ lv.child ≠ UNDEFINED then
      match readV data p1 with
      | none => none
      | some (c, p2) =>
        some { lv with pos := p2, child := c, doc := doc,
                       skipped := lv.skipped + lv.step }
    else
      some { lv with pos := p1, doc := doc,
                     skipped := lv.skipped + lv.step }

/-- `skip_reader::seek_skip(level, ptr, skipped)`: seek the level's stream
to `begin + ptr` only when that is strictly ahead of the cursor; in that
case install the carried `skipped` count and re-read the child offset if
the level has one. -/
def seek_skip (data : List Nat) (lv : RLevel) (ptr skipped : Nat) :
    Option RLevel :=
  let absolutePtr := lv.lbegin + ptr
  if lv.pos < absolutePtr then
    if lv.child ≠ UNDEFINED then
      match readV data absolutePtr with
      | none => none
      | some (c, p2) =>
        some { lv with pos := p2, child := c, skipped := skipped }
    else
      some { lv with pos := absolutePtr, skipped := skipped }
  else some lv

/-- Boolean rendering of
`std::is_sorted(levels_.rbegin(), levels_.rend(), doc <)` on the reversed
level list (finest first): consecutive `doc` marks never decrease. -/
def sortedByDocRev : List RLevel → Bool
  | [] => true
  | [_] => true
  | a :: b :: t => decide (a.doc ≤ b.doc) && sortedByDocRev (b :: t)

/-- `skip_reader::find_level(target)`: `std::upper_bound` over the
reversed levels (finest first) for the first level whose `doc` exceeds
`target` — on the asserted sorted range this is the partition point, so
it is rendered as a linear `findIdx`.  `rend` maps to the coarsest level,
`rbegin` stays at the finest, and otherwise the iterator is stepped one
level finer and converted to a forward index.  `none` models the failing
sortedness `assert`. -/
def find_level (levels : List RLevel) (target : Nat) : Option Nat :=
  let r := levels.reverse
  if sortedByDocRev r then
    let i := r.findIdx (fun lv => decide (target < lv.doc))
    some (if i = r.length then 0
          else if i = 0 then levels.length - 1
          else levels.length - i)
  else none

/-- The inner `for (; level.doc < target; read_skip(level))` loop of
`skip_reader::seek`, entered after one unconditional `read_skip`: while
the level's doc is below the target, latch the level's current child
offset into the loop variable and read the next skip entry.  Returns the
final level state and the latched child offset.  The fuel only bounds the
iteration count; `seek` supplies more fuel than any terminating C++ run
consumes. -/
def advanceLoop (data : List Nat) (target idx : Nat) :
    Nat → Nat → RLevel → Option (RLevel × Nat)
  | 0, _, _ => none
  | fuel + 1, cv, lv =>
    if lv.doc < target then
      match read_skip data idx lv with
      | none => none
      | some lv2 => advanceLoop data target idx fuel lv.child lv2
    else some (lv, cv)

/-- The body of the `std::for_each` in `skip_reader::seek` for one level:
when the level's doc mark is below the target, seek to the carried child
offset, latch the (possibly re-read) child, perform the unconditional
`read_skip` and then the advance loop, and finally carry
`level.skipped - level.step` to the next finer level. -/
def processLevel (data : List Nat) (target idx cv sv : Nat) (lv : RLevel) :
    Option (RLevel × Nat × Nat) :=
  if lv.doc < target then
    match seek_skip data lv cv sv with
    | none => none
    | some lv1 =>
      let cv1 := lv1.child
      match read_skip data idx lv1 with
      | none => none
      | some lv2 =>
        match advanceLoop data target idx (data.length + 2) cv1 lv2 with
        | none => none
        | some (lv3, cv2) => some (lv3, cv2, lv3.skipped - lv3.step)
  else some (lv, cv, sv)

/-- The `std::for_each` of `skip_reader::seek` over the levels from the
found one to the finest, threading the child offset and skipped count.
The level index passed to the read callback is the distance to the last
level. -/
def processLevels (data : List Nat) (target : Nat) :
    Nat → Nat → List RLevel → Option (List RLevel × Nat × Nat)
  | cv, sv, [] => some ([], cv, sv)
  | cv, sv, lv :: rest =>
    match processLevel data target rest.length cv sv lv with
    | none => none
    | some (lv2, cv2, sv2) =>
      match processLevels data target cv2 sv2 rest with
      | none => none
      | some (rest2, cv3, sv3) => some (lv2 :: rest2, cv3, sv3)

/-- `skip_reader::seek(target)`: find the starting level, run the descent
over the remaining levels, then report the finest level's accumulated
`skipped` minus `skip_0` (zero when nothing was skipped).  `none` models
the failing `assert(!levels_.empty())` (and the empty-vector `back()`
access it guards), the failing sortedness assert inside `find_level`, an
underlying stream failure, or a non-terminating C++ loop (fuel). -/
def seek (r : Reader) (target : Nat) : Option (Nat × Reader) :=
  match r.levels with
  | [] => none
  | _ :: _ =>
    match find_level r.levels target with
    | none => none
    | some start =>
      match processLevels r.data target 0 0 (r.levels.drop start) with
      | none => none
      | some (suffix, _, _) =>
        let newLevels := r.levels.take start ++ suffix
        let finalSkipped := (newLevels.getLastD default).skipped
        some (if finalSkipped = 0 then 0 else finalSkipped - r.skip0,
              { r with levels := newLevels })

/-- `skip_reader::load_level`: read the level's byte length (throwing
`index_error` — `corrupted` — when it is zero), record the window
`[begin, begin + length)`, and hand the level its own cursor positioned at
`begin`. -/
def load_level (data : List Nat) (pos step : Nat) : Except PrepErr RLevel :=
  match readV data pos with
  | none => .error .ioFail
  | some (len, p) =>
    if len = 0 then .error .corrupted
    else .ok { pos := p, lbegin := p, lend := p + len, child := 0,
               step := step, skipped := 0, doc := INVALID_DOC }

/-- The level-loading loop of `skip_reader::prepare` for the levels above
the finest: load a level from a duplicated cursor, seek the shared input
past its window, divide the step. -/
def loadLevels (data : List Nat) (skipn : Nat) :
    Nat → Nat → Nat → Except PrepErr (List RLevel × Nat)
  | 0, _, pos => .ok ([], pos)
  | m + 1, step, pos =>
    match load_level data pos step with
    | .error e => .error e
    | .ok lv =>
      match loadLevels data skipn m (step / skipn) lv.lend with
      | .error e => .error e
      | .ok (ls, p) => .ok (lv :: ls, p)

/-- `skip_reader::prepare`: read the level count; when it is zero the
reader keeps no levels.  Otherwise compute the coarsest step
`skip_0 * skip_n^(count-1)` (the C++ routes the power through `pow` on
`double`, exact for every representable integer power), load the levels
from coarsest to second-finest, then load the finest level with step
`skip_0` and mark its child as `UNDEFINED`. -/
def prepare (skip0 skipn : Nat) (data : List Nat) : Except PrepErr Reader :=
  match readV data 0 with
  | none => .error .ioFail
  | some (n, p0) =>
    if n = 0 then
      .ok { data := data, skip0 := skip0, skipn := skipn, levels := [] }
    else
      match loadLevels data skipn (n - 1) (skip0 * skipn ^ (n - 1)) p0 with
      | .error e => .error e
      | .ok (coarse, pos1) =>
        match load_level data pos1 skip0 with
        | .error e => .error e
        | .ok lvFin =>
          .ok { data := data, skip0 := skip0, skipn := skipn,
                levels := coarse ++ [{ lvFin with child := UNDEFINED }] }

/-- Run a sequence of `seek` calls, keeping only the final reader state. -/
def seekList (r : Reader) : List Nat → Option Reader
  | [] => some r
  | t :: ts =>
    match seek r t with
    | none => none
    | some (_, r2) => seekList r2 ts

end skip_reader

/-- Modelled from the spec: the postings writer appends document number
`i` (the id `docs[i-1]`) and then calls `skip_writer::skip(i)`; at each
skip point the write callback serializes the current document id as a
vlong.  `skipAll` performs the calls with running counts `i, i+1, ...`
for the remaining number of entries. -/
def skipAll (skip0 skipn : Nat) (docs : List Nat) :
    Nat → Nat → List (List Nat) → Option (List (List Nat))
  | _, 0, st => some st
  | i, rem + 1, st =>
    match skip_writer.skip (fun _ => writeVNat (docs.getD (i - 1) 0))
        skip0 skipn i st with
    | none => none
    | some st2 => skipAll skip0 skipn docs (i + 1) rem st2

/-- The full writer half of the round trip: prepare a writer sized to the
computed maximum level count for `docs.length` entries, feed it the
running counts `1 .. docs.length`, and flush. -/
def writeSkipList (skip0 skipn : Nat) (docs : List Nat) : Option (List Nat) :=
  match skipAll skip0 skipn docs 1 docs.length
      (skip_writer.prepare skip0 skipn (max_levels skip0 skipn docs.length)
        docs.length) with
  | none => none
  | some st => skip_writer.flush st

/-- The concrete instance of the round-trip claim: `skip_0 = 2`,
`skip_n = 2`, the sixteen document ids `0 .. 15`. -/
def concDocs : List Nat := [0, 1, 2, 3, 4, 5, 6, 7, 8, 9, 10, 11, 12, 13, 14, 15]

/-- The serialized skip list of the concrete instance. -/
def concBytes : List Nat := (writeSkipList 2 2 concDocs).getD []

/-- The loaded reader of the concrete instance. -/
def concReader : Reader :=
  (skip_reader.prepare 2 2 concBytes).toOption.getD
    { data := [], skip0 := 2, skipn := 2, levels := [] }

/-- The reader state after `seek(10)` on the concrete instance. -/
def concAfter10 : Reader :=
  ((skip_reader.seek concReader 10).getD (0, concReader)).2

/-- Run a list of `skip_writer::skip` calls, each with its own write
callback and running count. -/
def skipCalls (skip0 skipn : Nat) :
    List ((Nat → List Nat) × Nat) → List (List Nat) → Option (List (List Nat))
  | [], st => some st
  | (w, c) :: rest, st =>
    match skip_writer.skip w skip0 skipn c st with
    | none => none
    | some st2 => skipCalls skip0 skipn rest st2

/-- Downward closure of the writer's buffers: whenever a level's buffer is
non-empty, so is every finer level's buffer. -/
def DownwardClosed (ls : List (List Nat)) : Prop :=
  ∀ i j, i ≤ j → j < ls.length → ls.getD j [] ≠ [] → ls.getD i [] ≠ []

/-- The level framing produced by `skip_writer::flush` for a list of level
buffers: each buffer is preceded by its byte length as a vlong. -/
def framesOf (bs : List (List Nat)) : List Nat :=
  bs.flatMap (fun b => writeVNat b.length ++ b)

/-- Stride of writer level `m`: `skip_0 * skip_n ^ m`. -/
def stepOf (skip0 skipn m : Nat) : Nat := skip0 * skipn ^ m

/-- Document id recorded at running count `i` (the id of the `i`-th
appended entry, `docs[i-1]`). -/
def dAt (docs : List Nat) (i : Nat) : Nat := docs.getD (i - 1) 0

/-- Byte string of the `t`-th skip entry (1-based) of writer level `m` in
the round trip: level 0 holds just the document id; level `m+1` holds the
document id followed by the recorded child offset, which points just past
the payload of entry `t * skip_n` of level `m`. -/
def levelEntry (skip0 skipn : Nat) (docs : List Nat) : Nat → Nat → List Nat
  | 0, t => writeVNat (dAt docs (t * skip0))
  | m + 1, t =>
    writeVNat (dAt docs (t * stepOf skip0 skipn (m + 1))) ++
      writeVNat
        (((List.range (t * skipn - 1)).flatMap
            (fun j => levelEntry skip0 skipn docs m (j + 1))).length +
          vlen (dAt docs (t * skipn * stepOf skip0 skipn m)))
termination_by m _t => m

/-- Concatenation of the first `k` entries of writer level `m`. -/
def lvlBuf (skip0 skipn : Nat) (docs : List Nat) (m k : Nat) : List Nat :=
  (List.range k).flatMap (fun j => levelEntry skip0 skipn docs m (j + 1))

/-- Byte offset into level `m` that resumes reading just after the payload
of entry `j` (for level 0, just after the whole entry, which is the same
thing); `0` resumes at the start. -/
def resumeOff (skip0 skipn : Nat) (docs : List Nat) (m j : Nat) : Nat :=
  if j = 0 then 0
  else (lvlBuf skip0 skipn docs m (j - 1)).length +
    vlen (dAt docs (j * stepOf skip0 skipn m))

/-- A freshly loaded reader level whose window holds the byte string `B`
with stride `stp`; `finest` tells whether the level is the last (no child
pointer). -/
def FreshLevelOn (data B : List Nat) (stp : Nat) (finest : Bool)
    (lv : RLevel) : Prop :=
  lv.pos = lv.lbegin ∧ lv.lend = lv.lbegin + B.length ∧ lv.step = stp ∧
  lv.skipped = 0 ∧ lv.doc = INVALID_DOC ∧
  lv.child = (if finest then UNDEFINED else 0) ∧
  ∃ rest, data.drop lv.lbegin = B ++ rest

/-- How a level may change across a `seek`: the window and stride are
fixed, the cursor never moves backward, and a missing child pointer stays
missing. -/
def LevelEvolves (a b : RLevel) : Prop :=
  b.lbegin = a.lbegin ∧ b.lend = a.lend ∧ b.step = a.step ∧
  a.pos ≤ b.pos ∧ (a.child = UNDEFINED → b.child = UNDEFINED)

/-- A reader level holding only a `doc` mark, used for concrete
`find_level` inputs. -/
def docOnlyLevel (d : Nat) : RLevel :=
  { pos := 0, lbegin := 0, lend := 0, child := 0, step := 0, skipped := 0,
    doc := d }

/-- Concrete `find_level` input: three levels with doc marks 9, 5, 3 from
coarsest to finest (sorted for the reversed-order assert). -/
def c5levels : List RLevel := [docOnlyLevel 9, docOnlyLevel 5, docOnlyLevel 3]

/-- Concrete underlying data for the `read_bytes` overrun. -/
def c9data : List Nat := [10, 11, 12, 13, 14, 15, 16, 17]

/-- Concrete level for the `read_bytes` overrun: window `[2, 4)`, cursor
at the window start. -/
def c9level : RLevel :=
  { pos := 2, lbegin := 2, lend := 4, child := 0, step := 1, skipped := 0,
    doc := 0 }

/-- The concrete reader after the seek sequence `[5, 10]`. -/
def c6after : Reader :=
  (skip_reader.seekList concReader [5, 10]).getD concReader

/-- Number of skip entries written into writer level `m` for `docs.length`
total entries: one per multiple of the level's stride. -/
def entCount (skip0 skipn : Nat) (docs : List Nat) (m : Nat) : Nat :=
  docs.length / stepOf skip0 skipn m

/-- Reader-level state "at the boundary after entry `j`" of writer level
`m` whose window starts at absolute offset `lb`: the cursor sits just past
entry `j`, the child offset is the one recorded in entry `j` (the resume
offset into level `m - 1`; `UNDEFINED` at the finest level), the skipped
count is `j` strides, and the doc mark is the id recorded in entry `j`. -/
def bLv (skip0 skipn : Nat) (docs : List Nat) (lb m j : Nat) : RLevel :=
  { pos := lb + (lvlBuf skip0 skipn docs m j).length,
    lbegin := lb,
    lend := lb +
      (lvlBuf skip0 skipn docs m (entCount skip0 skipn docs m)).length,
    child := if m = 0 then UNDEFINED
             else resumeOff skip0 skipn docs (m - 1) (j * skipn),
    step := stepOf skip0 skipn m,
    skipped := j * stepOf skip0 skipn m,
    doc := dAt docs (j * stepOf skip0 skipn m) }

/-!
# Theorems

Everything below is proved about the definitions above; the claim
theorems are named `c1_…` through `c10_…`.
-/

/-! ### Basic facts about the encodings and the integer logarithm -/

theorem writeVNatAux_eq (f1 : Nat) : ∀ f2 v, v ≤ f1 → v ≤ f2 →
    writeVNatAux f1 v = writeVNatAux f2 v := by
  induction f1 with
  | zero =>
    intro f2 v h1 _h2
    have hv : v = 0 := by omega
    subst hv
    cases f2 <;> simp [writeVNatAux]
  | succ f ih =>
    intro f2 v h1 h2
    cases f2 with
    | zero =>
      have hv : v = 0 := by omega
      subst hv
      simp [writeVNatAux]
    | succ g =>
      simp only [writeVNatAux]
      by_cases hv : v < 128
      · simp [hv]
      · simp only [if_neg hv]
        have hd : v / 128 < v := Nat.div_lt_self (by omega) (by omega)
        rw [ih g (v / 128) (by omega) (by omega)]

theorem writeVNat_unfold (v : Nat) :
    writeVNat v = if v < 128 then [v] else (v % 128 + 128) :: writeVNat (v / 128) := by
  unfold writeVNat
  cases v with
  | zero => simp [writeVNatAux]
  | succ n =>
    simp only [writeVNatAux]
    by_cases h : n + 1 < 128
    · simp [h]
    · simp only [if_neg h]
      have hd : (n + 1) / 128 < n + 1 := Nat.div_lt_self (by omega) (by omega)
      rw [writeVNatAux_eq n ((n + 1) / 128) ((n + 1) / 128) (by omega) (le_refl _)]

theorem irsLogAux_eq (f1 : Nat) : ∀ f2 v base, v ≤ f1 → v ≤ f2 →
    irsLogAux f1 v base = irsLogAux f2 v base := by
  induction f1 with
  | zero =>
    intro f2 v base h1 _h2
    have hv : v = 0 := by omega
    subst hv
    cases f2 with
    | zero => rfl
    | succ g =>
      simp only [irsLogAux]
      rw [if_neg (by omega)]
  | succ f ih =>
    intro f2 v base h1 h2
    cases f2 with
    | zero =>
      have hv : v = 0 := by omega
      subst hv
      simp only [irsLogAux]
      rw [if_neg (by omega)]
    | succ g =>
      simp only [irsLogAux]
      by_cases hc : 2 ≤ base ∧ base ≤ v
      · simp only [if_pos hc]
        have hd : v / base < v := Nat.div_lt_self (by omega) (by omega)
        rw [ih g (v / base) base (by omega) (by omega)]
      · simp [if_neg hc]

theorem irsLog_unfold (v base : Nat) :
    irsLog v base = if 2 ≤ base ∧ base ≤ v then irsLog (v / base) base + 1 else 0 := by
  unfold irsLog
  cases v with
  | zero =>
    rw [if_neg (by omega)]
    rfl
  | succ n =>
    simp only [irsLogAux]
    by_cases hc : 2 ≤ base ∧ base ≤ n + 1
    · simp only [if_pos hc]
      have hd : (n + 1) / base < n + 1 := Nat.div_lt_self (by omega) (by omega)
      rw [irsLogAux_eq n ((n + 1) / base) ((n + 1) / base) base (by omega) (le_refl _)]
    · simp [if_neg hc]

theorem writeVNat_ne_nil (v : Nat) : writeVNat v ≠ [] := by
  rw [writeVNat_unfold]
  split <;> simp

theorem vlen_pos (v : Nat) : 1 ≤ vlen v := by
  unfold vlen
  cases h : writeVNat v with
  | nil => exact absurd h (writeVNat_ne_nil v)
  | cons a t => simp

theorem readVFrom_writeVNat (v : Nat) (t : List Nat) :
    readVFrom (writeVNat v ++ t) = some (v, vlen v) := by
  induction v using Nat.strong_induction_on with
  | _ v ih =>
    unfold vlen
    rw [writeVNat_unfold]
    by_cases h : v < 128
    · simp [h, readVFrom]
    · simp only [if_neg h, List.cons_append, readVFrom]
      have h1 : ¬ (v % 128 + 128 < 128) := by omega
      rw [if_neg h1, ih (v / 128) (Nat.div_lt_self (by omega) (by omega))]
      have hmod : v % 128 + 128 * (v / 128) = v := Nat.mod_add_div v 128
      simp only [Nat.add_sub_cancel]
      simp [hmod, vlen]

theorem readV_spec (data : List Nat) (pos v : Nat) (C : List Nat)
    (h : data.drop pos = writeVNat v ++ C) :
    readV data pos = some (v, pos + vlen v) := by
  unfold readV
  rw [h, readVFrom_writeVNat]

theorem readVFrom_bounds : ∀ (l : List Nat) (v n : Nat),
    readVFrom l = some (v, n) → 1 ≤ n ∧ n ≤ l.length := by
  intro l
  induction l with
  | nil => intro v n h; simp [readVFrom] at h
  | cons b rest ih =>
    intro v n h
    simp only [readVFrom] at h
    by_cases hb : b < 128
    · rw [if_pos hb] at h
      injection h with h1
      injection h1 with _ h2
      simp [← h2]
    · rw [if_neg hb] at h
      cases hr : readVFrom rest with
      | none => rw [hr] at h; exact absurd h (by simp)
      | some vn =>
        rw [hr] at h
        injection h with h1
        injection h1 with _ h2
        have := ih vn.1 vn.2 (by rw [hr])
        simp only [List.length_cons]
        omega

theorem readV_bounds (data : List Nat) (pos v p : Nat)
    (h : readV data pos = some (v, p)) : pos < p ∧ p ≤ data.length := by
  unfold readV at h
  cases hr : readVFrom (data.drop pos) with
  | none => rw [hr] at h; exact absurd h (by simp)
  | some vn =>
    rw [hr] at h
    injection h with h1
    injection h1 with _ h2
    have hb := readVFrom_bounds (data.drop pos) vn.1 vn.2 (by rw [hr])
    have hl : (data.drop pos).length = data.length - pos := by simp
    omega

/-! ### C2: level count allocated by `skip_writer::prepare` -/

/-- C2, counterexample: with `skip_0 = 2, skip_n = 2`, a requested
maximum of 5 levels and a total entry count of 2 (`count ≤ skip_0`), the
writer allocates zero level buffers, refuting "always at least 1"; and
with a requested maximum of 0 and a count of 16 it allocates one buffer,
refuting "exactly min(requestedMaxLevels, computedMaxLevels)" (which
would be 0). -/
theorem c2_counterexample :
    ¬ (1 ≤ (skip_writer.prepare 2 2 5 2).length) ∧
    (skip_writer.prepare 2 2 0 16).length ≠ min 0 (max_levels 2 2 16) := by
  decide

/-- C2, amended: `prepare` allocates exactly
`min(max(1, requestedMaxLevels), computedMaxLevels)` level buffers, and
this count is at least 1 exactly when `skip_0 < totalEntryCount` (it is 0
when `totalEntryCount ≤ skip_0`, where `computedMaxLevels` is 0). -/
theorem c2_prepare_level_count (skip0 skipn maxLevels count : Nat) :
    (skip_writer.prepare skip0 skipn maxLevels count).length
      = min (max 1 maxLevels) (max_levels skip0 skipn count) ∧
    (1 ≤ (skip_writer.prepare skip0 skipn maxLevels count).length
      ↔ skip0 < count) := by
  constructor
  · simp [skip_writer.prepare]
  · simp only [skip_writer.prepare, List.length_replicate]
    unfold max_levels
    by_cases h : skip0 < count
    · simp only [if_pos h]
      constructor
      · intro _; exact h
      · intro _; omega
    · simp only [if_neg h]
      constructor
      · intro hc; omega
      · intro hc; exact absurd hc h

/-! ### C3: a reader loaded with zero levels -/

/-- C3, counterexample: loading from the byte stream `[0]` (level count
zero) yields a reader with no levels, and `seek(5)` on it does not return
zero with the state unchanged — it fails the `assert(!levels_.empty())`
(and the `levels_.back()` access the assert guards). -/
theorem c3_counterexample :
    skip_reader.prepare 2 2 [0]
      = .ok { data := [0], skip0 := 2, skipn := 2, levels := [] } ∧
    skip_reader.seek { data := [0], skip0 := 2, skipn := 2, levels := [] } 5
      ≠ some (0, { data := [0], skip0 := 2, skipn := 2, levels := [] }) := by
  decide

/-- C3, amended: if `prepare` reads a level count of zero, the reader
holds no levels, and every call to `seek` fails the reader's non-empty
assertion (its unconditional access to the last level is out of bounds),
rather than being a state-preserving no-op that returns zero. -/
theorem c3_zero_levels (skip0 skipn : Nat) (data : List Nat) (p : Nat)
    (h : readV data 0 = some (0, p)) :
    skip_reader.prepare skip0 skipn data
      = .ok { data := data, skip0 := skip0, skipn := skipn, levels := [] } ∧
    ∀ target,
      skip_reader.seek
        { data := data, skip0 := skip0, skipn := skipn, levels := [] } target
        = none := by
  refine ⟨?_, fun _ => rfl⟩
  unfold skip_reader.prepare
  rw [h]
  simp

/-- C3 witness: the amended statement at the concrete stream `[0]`. -/
theorem c3_zero_levels_witness :
    readV [0] 0 = some (0, 1) ∧
    skip_reader.prepare 2 2 [0]
      = .ok { data := [0], skip0 := 2, skipn := 2, levels := [] } ∧
    skip_reader.seek { data := [0], skip0 := 2, skipn := 2, levels := [] } 7
      = none :=
  ⟨by decide, (c3_zero_levels 2 2 [0] 1 (by decide)).1,
    (c3_zero_levels 2 2 [0] 1 (by decide)).2 7⟩

/-! ### C7: index corruption on a zero declared level length -/

/-- C7: `load_level` raises the index-corruption error exactly when the
declared byte length it reads is zero, and both the loading loop and
`prepare` surface that error to the caller unchanged (from either a
coarse level or the finest level). -/
theorem c7_load_level_corruption :
    (∀ data pos stp len p, readV data pos = some (len, p) →
      (skip_reader.load_level data pos stp = .error PrepErr.corrupted
        ↔ len = 0)) ∧
    (∀ data skipn m stp pos e,
      skip_reader.load_level data pos stp = .error e →
      skip_reader.loadLevels data skipn (m + 1) stp pos = .error e) ∧
    (∀ skip0 skipn data n p0 e, readV data 0 = some (n, p0) → n ≠ 0 →
      skip_reader.loadLevels data skipn (n - 1) (skip0 * skipn ^ (n - 1)) p0
        = .error e →
      skip_reader.prepare skip0 skipn data = .error e) ∧
    (∀ skip0 skipn data n p0 coarse pos1 e,
      readV data 0 = some (n, p0) → n ≠ 0 →
      skip_reader.loadLevels data skipn (n - 1) (skip0 * skipn ^ (n - 1)) p0
        = .ok (coarse, pos1) →
      skip_reader.load_level data pos1 skip0 = .error e →
      skip_reader.prepare skip0 skipn data = .error e) := by
  refine ⟨?_, ?_, ?_, ?_⟩
  · intro data pos stp len p h
    unfold skip_reader.load_level
    rw [h]
    by_cases hl : len = 0 <;> simp [hl]
  · intro data skipn m stp pos e h
    unfold skip_reader.loadLevels
    rw [h]
  · intro skip0 skipn data n p0 e h hn hl
    unfold skip_reader.prepare
    rw [h]
    simp only [if_neg hn]
    rw [hl]
  · intro skip0 skipn data n p0 coarse pos1 e h hn hl hf
    simp [skip_reader.prepare, h, hn, hl, hf]

/-- C7 witness: the corruption iff at the concrete stream `[0]` (declared
length zero). -/
theorem c7_witness :
    readV [0] 0 = some (0, 1) ∧
    (skip_reader.load_level [0] 0 3 = .error PrepErr.corrupted
      ↔ (0 : Nat) = 0) :=
  ⟨by decide, c7_load_level_corruption.1 [0] 0 3 0 1 (by decide)⟩

/-! ### C9: `level::read_bytes` window confinement -/

/-- C9: at the failing input — underlying bytes `[10 .. 17]`, a level
with window `[2, 4)` and its cursor at the window start, a request for 4
bytes — the cap `end - file_pointer()` evaluates to 4 (because
`level::file_pointer()` is window-relative while `end` is absolute), so
the call returns 4 bytes, including the bytes 14 and 15 that live at
absolute positions 4 and 5, beyond the window's end; the cursor also ends
up past `end`.  This contradicts the claimed confinement to
`[begin, end)`. -/
theorem c9_read_bytes_overrun :
    (skip_reader.read_bytes c9data c9level 4).1 = [12, 13, 14, 15] ∧
    c9level.lend - (c9level.pos - c9level.lbegin) = 4 ∧
    c9level.lend - c9level.pos = 2 ∧
    c9level.lend ≤ (skip_reader.read_bytes c9data c9level 4).2.pos ∧
    c9data.getD 4 0 = 14 ∧ c9data.getD 5 0 = 15 := by
  decide

/-! ### C5: characterization of `find_level` -/

theorem sortedByDocRev_tail (a : RLevel) (t : List RLevel)
    (h : skip_reader.sortedByDocRev (a :: t) = true) :
    skip_reader.sortedByDocRev t = true := by
  cases t with
  | nil => rfl
  | cons b t2 =>
    simp only [skip_reader.sortedByDocRev, Bool.and_eq_true] at h
    exact h.2

theorem sortedByDocRev_head (a b : RLevel) (t : List RLevel)
    (h : skip_reader.sortedByDocRev (a :: b :: t) = true) : a.doc ≤ b.doc := by
  simp only [skip_reader.sortedByDocRev, Bool.and_eq_true, decide_eq_true_eq] at h
  exact h.1

theorem sortedByDocRev_le : ∀ (l : List RLevel),
    skip_reader.sortedByDocRev l = true →
    ∀ i j, (hij : i ≤ j) → (hj : j < l.length) →
      (l.get ⟨i, by omega⟩).doc ≤ (l.get ⟨j, hj⟩).doc := by
  intro l
  induction l with
  | nil => intro _ i j hij hj; simp at hj
  | cons a t ih =>
    intro hs i j hij hj
    cases i with
    | zero =>
      cases j with
      | zero => exact le_refl _
      | succ j2 =>
        cases t with
        | nil => simp at hj
        | cons b t2 =>
          have h1 : a.doc ≤ b.doc := sortedByDocRev_head a b t2 hs
          have h2 := ih (sortedByDocRev_tail a _ hs) 0 j2 (by omega)
            (by simpa using hj)
          simpa using le_trans h1 h2
    | succ i2 =>
      cases j with
      | zero => omega
      | succ j2 =>
        have h2 := ih (sortedByDocRev_tail a _ hs) i2 j2 (by omega)
          (by simpa using hj)
        simpa using h2

/-- C5, counterexample: three levels with doc marks 9, 5, 3 (coarsest to
finest; sorted in the asserted reverse order) and target 4.  Level 0 is
the coarsest level whose doc mark (9) is not less than the target, so the
claim predicts index 0; `find_level` actually returns index 2 (the
finest level, doc mark 3). -/
theorem c5_counterexample :
    skip_reader.find_level c5levels 4 = some 2 ∧
    4 ≤ (c5levels.getD 0 default).doc ∧
    skip_reader.find_level c5levels 4 ≠ some 0 := by
  decide

/-- C5, amended: under the asserted sortedness, `find_level` returns the
index of the coarsest level whose last-read doc is NOT GREATER than the
target (equivalently, the level one finer than the finest level whose doc
exceeds the target), or the finest level when every level's doc exceeds
the target; when no level's doc exceeds the target this is the absolute
coarsest level (index 0). -/
theorem c5_find_level_characterization (levels : List RLevel) (target : Nat)
    (hne : levels ≠ [])
    (hs : skip_reader.sortedByDocRev levels.reverse = true) :
    ∃ i, skip_reader.find_level levels target = some i ∧ i < levels.length ∧
      ((∀ lv ∈ levels, target < lv.doc) ∧ i = levels.length - 1 ∨
        ((levels.getD i default).doc ≤ target ∧
          ∀ j, j < i → target < (levels.getD j default).doc)) := by
  have hm : 0 < levels.length := by
    cases levels with
    | nil => exact absurd rfl hne
    | cons a t => simp
  have hrl : levels.reverse.length = levels.length := by simp
  set p : RLevel → Bool := fun lv => decide (target < lv.doc) with hp
  set k := levels.reverse.findIdx p with hk
  have hkle : k ≤ levels.length := by
    rw [hk, ← hrl]; exact List.findIdx_le_length p
  have hfl : skip_reader.find_level levels target
      = some (if k = levels.reverse.length then 0
              else if k = 0 then levels.length - 1 else levels.length - k) := by
    unfold skip_reader.find_level
    rw [if_pos hs]
  by_cases hkm : k = levels.length
  · -- no level's doc exceeds the target: the coarsest level is returned
    refine ⟨0, ?_, hm, Or.inr ⟨?_, by omega⟩⟩
    · rw [hfl, if_pos (by omega)]
    · have hall : ∀ x ∈ levels.reverse, p x = false :=
        List.findIdx_eq_length.mp (by rw [← hk, hkm, ← hrl])
      have h0 : levels.getD 0 default ∈ levels := by
        have : levels.getD 0 default = levels.get ⟨0, hm⟩ := by
          simp [List.getD_eq_getElem?_getD, List.getElem?_eq_getElem hm]
        rw [this]
        exact List.get_mem levels 0 hm
      have := hall _ (by rw [List.mem_reverse]; exact h0)
      simp only [hp, decide_eq_false_iff_not, not_lt] at this
      exact this
  · have hklt : k < levels.length := by omega
    have hpk : p (levels.reverse.get ⟨k, by omega⟩) = true := by
      have := @List.findIdx_getElem _ p levels.reverse (by rw [← hk]; omega)
      simpa [← hk] using this
    by_cases hk0 : k = 0
    · -- even the finest level's doc exceeds the target
      refine ⟨levels.length - 1, ?_, by omega, Or.inl ⟨?_, rfl⟩⟩
      · rw [hfl, if_neg (by omega), if_pos hk0]
      · intro lv hlv
        obtain ⟨j, hget⟩ := List.get_of_mem (List.mem_reverse.mpr hlv)
        have hsort := sortedByDocRev_le levels.reverse hs k j.1 (by omega) j.2
        have hpt : target < (levels.reverse.get ⟨k, by omega⟩).doc := by
          simpa [hp] using hpk
        rw [← hget]
        exact lt_of_lt_of_le hpt hsort
    · -- general case: one level finer than the finest level above target
      refine ⟨levels.length - k, ?_, by omega, Or.inr ⟨?_, ?_⟩⟩
      · rw [hfl, if_neg (by omega), if_neg hk0]
      · -- the returned level is reverse position k - 1: doc ≤ target
        have hgd : levels.getD (levels.length - k) default
            = levels.get ⟨levels.length - k, by omega⟩ := by
          have hlt : levels.length - k < levels.length := by omega
          simp [List.getD_eq_getElem?_getD, List.getElem?_eq_getElem hlt]
        have hrev : levels.reverse.get ⟨k - 1, by omega⟩
            = levels.get ⟨levels.length - k, by omega⟩ := by
          have := @List.getElem_reverse _ levels (k - 1) (by omega)
          have harg : levels.length - 1 - (k - 1) = levels.length - k := by omega
          simp only [harg] at this
          simpa [List.get_eq_getElem] using this
        have hnot := @List.not_of_lt_findIdx _ p levels.reverse (k - 1)
          (by rw [← hk]; omega)
        rw [hgd, ← hrev]
        have : p (levels.reverse.get ⟨k - 1, by omega⟩) = false := by
          simpa [List.get_eq_getElem] using hnot
        simp only [hp, decide_eq_false_iff_not, not_lt] at this
        exact this
      · -- every strictly coarser level's doc exceeds the target
        intro j hj
        have hjlt : j < levels.length := by omega
        have hgd : levels.getD j default = levels.get ⟨j, hjlt⟩ := by
          simp [List.getD_eq_getElem?_getD, List.getElem?_eq_getElem hjlt]
        have hrev : levels.reverse.get ⟨levels.length - 1 - j, by omega⟩
            = levels.get ⟨j, hjlt⟩ := by
          have := @List.getElem_reverse _ levels (levels.length - 1 - j) (by omega)
          have harg : levels.length - 1 - (levels.length - 1 - j) = j := by omega
          simp only [harg] at this
          simpa [List.get_eq_getElem] using this
        have hsort := sortedByDocRev_le levels.reverse hs k (levels.length - 1 - j)
          (by omega) (by omega)
        have hpt : target < (levels.reverse.get ⟨k, by omega⟩).doc := by
          simpa [hp] using hpk
        rw [hgd, ← hrev]
        omega

/-- C5 witness: the amended characterization at the concrete three-level
input with target 4. -/
theorem c5_witness :
    ∃ i, skip_reader.find_level c5levels 4 = some i ∧ i < c5levels.length ∧
      ((∀ lv ∈ c5levels, 4 < lv.doc) ∧ i = c5levels.length - 1 ∨
        ((c5levels.getD i default).doc ≤ 4 ∧
          ∀ j, j < i → 4 < (c5levels.getD j default).doc)) :=
  c5_find_level_characterization c5levels 4 (by decide) (by decide)

/-! ### Structure of a successful `seek` -/

theorem seek_shape (r : Reader) (target res : Nat) (r2 : Reader)
    (h : skip_reader.seek r target = some (res, r2)) :
    ∃ start suffix cv sv,
      skip_reader.find_level r.levels target = some start ∧
      skip_reader.processLevels r.data target 0 0 (r.levels.drop start)
        = some (suffix, cv, sv) ∧
      r2 = { r with levels := r.levels.take start ++ suffix } ∧
      res = (if ((r.levels.take start ++ suffix).getLastD default).skipped = 0
             then 0
             else ((r.levels.take start ++ suffix).getLastD default).skipped
               - r.skip0) ∧
      r.levels ≠ [] := by
  unfold skip_reader.seek at h
  split at h
  · exact absurd h (by simp)
  · rename_i a t hcons
    split at h
    · exact absurd h (by simp)
    · rename_i start hfind
      split at h
      · exact absurd h (by simp)
      · rename_i x suffix cv sv hproc
        simp only [Option.some.injEq, Prod.mk.injEq] at h
        obtain ⟨hres, hr2⟩ := h
        exact ⟨start, suffix, cv, sv, hfind, hproc, hr2.symm, hres.symm,
          by rw [hcons]; simp⟩

/-! ### C4: the value returned by `seek` -/

/-- C4: whenever `seek` returns, the returned skip count is the finest
level's accumulated `skipped` after the descent, minus `skip_0`, or zero
when that accumulated count is zero. -/
theorem c4_seek_return_value (r : Reader) (target res : Nat) (r2 : Reader)
    (h : skip_reader.seek r target = some (res, r2)) :
    res = if (r2.levels.getLastD default).skipped = 0 then 0
          else (r2.levels.getLastD default).skipped - r.skip0 := by
  obtain ⟨start, suffix, cv, sv, _, _, hr2, hres, _⟩ := seek_shape r target res r2 h
  rw [hres, hr2]

/-- C4 witness: the equality at the concrete round-trip reader and
target 10. -/
theorem c4_witness :
    skip_reader.seek concReader 10 = some (10, concAfter10) ∧
    (10 : Nat) = if (concAfter10.levels.getLastD default).skipped = 0 then 0
                 else (concAfter10.levels.getLastD default).skipped
                   - concReader.skip0 :=
  ⟨by decide, c4_seek_return_value concReader 10 10 concAfter10 (by decide)⟩

/-! ### C6: level cursors never move backward -/

theorem LevelEvolves_refl (a : RLevel) : LevelEvolves a a :=
  ⟨rfl, rfl, rfl, le_refl _, fun h => h⟩

theorem LevelEvolves_trans {a b c : RLevel} (h1 : LevelEvolves a b)
    (h2 : LevelEvolves b c) : LevelEvolves a c := by
  obtain ⟨e1, e2, e3, e4, e5⟩ := h1
  obtain ⟨f1, f2, f3, f4, f5⟩ := h2
  exact ⟨by rw [f1, e1], by rw [f2, e2], by rw [f3, e3], le_trans e4 f4,
    fun h => f5 (e5 h)⟩

theorem readCallback_pos_le (data : List Nat) (idx : Nat) (lv : RLevel)
    (doc p1 : Nat)
    (h : skip_reader.readCallback data idx lv = some (doc, p1)) :
    lv.pos ≤ p1 := by
  unfold skip_reader.readCallback at h
  split at h
  · simp only [Option.some.injEq, Prod.mk.injEq] at h
    omega
  · split at h
    · exact absurd h (by simp)
    · rename_i v p hr
      simp only [Option.some.injEq, Prod.mk.injEq] at h
      have := readV_bounds data lv.pos v p hr
      omega

theorem read_skip_evolves (data : List Nat) (idx : Nat) (lv lv2 : RLevel)
    (h : skip_reader.read_skip data idx lv = some lv2) : LevelEvolves lv lv2 := by
  unfold skip_reader.read_skip at h
  split at h
  · exact absurd h (by simp)
  · rename_i doc p1 hcb
    have hple := readCallback_pos_le data idx lv doc p1 hcb
    split at h
    · rename_i hg
      split at h
      · exact absurd h (by simp)
      · rename_i c p2 hr2
        have hb2 := readV_bounds data p1 c p2 hr2
        simp only [Option.some.injEq] at h
        rw [← h]
        exact ⟨rfl, rfl, rfl, by simp only []; omega,
          fun hc => absurd hc hg.2⟩
    · simp only [Option.some.injEq] at h
      rw [← h]
      exact ⟨rfl, rfl, rfl, by simp only []; omega, fun hc => hc⟩

theorem seek_skip_evolves (data : List Nat) (lv : RLevel) (ptr sk : Nat)
    (lv2 : RLevel) (h : skip_reader.seek_skip data lv ptr sk = some lv2) :
    LevelEvolves lv lv2 := by
  unfold skip_reader.seek_skip at h
  simp only [] at h
  split at h
  · rename_i hmove
    split at h
    · rename_i hch
      split at h
      · exact absurd h (by simp)
      · rename_i c p2 hr
        have hb := readV_bounds data (lv.lbegin + ptr) c p2 hr
        simp only [Option.some.injEq] at h
        rw [← h]
        exact ⟨rfl, rfl, rfl, by show lv.pos ≤ p2; omega,
          fun hcu => absurd hcu hch⟩
    · simp only [Option.some.injEq] at h
      rw [← h]
      exact ⟨rfl, rfl, rfl, by show lv.pos ≤ lv.lbegin + ptr; omega,
        fun hcu => hcu⟩
  · simp only [Option.some.injEq] at h
    rw [← h]
    exact LevelEvolves_refl lv

theorem advanceLoop_evolves (data : List Nat) (target idx : Nat) :
    ∀ fuel cv lv lv2 cv2,
      skip_reader.advanceLoop data target idx fuel cv lv = some (lv2, cv2) →
      LevelEvolves lv lv2 := by
  intro fuel
  induction fuel with
  | zero =>
    intro cv lv lv2 cv2 h
    exact absurd h (by simp [skip_reader.advanceLoop])
  | succ f ih =>
    intro cv lv lv2 cv2 h
    unfold skip_reader.advanceLoop at h
    split at h
    · split at h
      · exact absurd h (by simp)
      · rename_i lv3 hr
        exact LevelEvolves_trans (read_skip_evolves data idx lv lv3 hr)
          (ih lv.child lv3 lv2 cv2 h)
    · simp only [Option.some.injEq, Prod.mk.injEq] at h
      rw [← h.1]
      exact LevelEvolves_refl lv

theorem processLevel_evolves (data : List Nat) (target idx cv sv : Nat)
    (lv lv2 : RLevel) (cv2 sv2 : Nat)
    (h : skip_reader.processLevel data target idx cv sv lv
      = some (lv2, cv2, sv2)) : LevelEvolves lv lv2 := by
  unfold skip_reader.processLevel at h
  split at h
  · split at h
    · exact absurd h (by simp)
    · rename_i lva h1
      simp only [] at h
      split at h
      · exact absurd h (by simp)
      · rename_i lvb h2
        split at h
        · exact absurd h (by simp)
        · rename_i x lvc cvc h3
          simp only [Option.some.injEq, Prod.mk.injEq] at h
          rw [← h.1]
          exact LevelEvolves_trans (seek_skip_evolves data lv cv sv lva h1)
            (LevelEvolves_trans (read_skip_evolves data idx lva lvb h2)
              (advanceLoop_evolves data target idx (data.length + 2)
                lva.child lvb lvc cvc h3))
  · simp only [Option.some.injEq, Prod.mk.injEq] at h
    rw [← h.1]
    exact LevelEvolves_refl lv

theorem processLevels_evolves (data : List Nat) (target : Nat) :
    ∀ ls cv sv ls2 cv2 sv2,
      skip_reader.processLevels data target cv sv ls = some (ls2, cv2, sv2) →
      List.Forall₂ LevelEvolves ls ls2 := by
  intro ls
  induction ls with
  | nil =>
    intro cv sv ls2 cv2 sv2 h
    simp only [skip_reader.processLevels, Option.some.injEq, Prod.mk.injEq] at h
    rw [← h.1]
    exact List.Forall₂.nil
  | cons a t ih =>
    intro cv sv ls2 cv2 sv2 h
    unfold skip_reader.processLevels at h
    split at h
    · exact absurd h (by simp)
    · rename_i x a2 cva sva h1
      split at h
      · exact absurd h (by simp)
      · rename_i y t2 cvb svb h2
        simp only [Option.some.injEq, Prod.mk.injEq] at h
        rw [← h.1]
        exact List.Forall₂.cons
          (processLevel_evolves data target t.length cv sv a a2 cva sva h1)
          (ih cva sva t2 cvb svb h2)

theorem seek_evolves (r : Reader) (target res : Nat) (r2 : Reader)
    (h : skip_reader.seek r target = some (res, r2)) :
    r2.data = r.data ∧ r2.skip0 = r.skip0 ∧ r2.skipn = r.skipn ∧
    List.Forall₂ LevelEvolves r.levels r2.levels := by
  obtain ⟨start, suffix, cv, sv, _, hproc, hr2, _, _⟩ :=
    seek_shape r target res r2 h
  subst hr2
  refine ⟨rfl, rfl, rfl, ?_⟩
  have hsuf := processLevels_evolves r.data target (r.levels.drop start)
    0 0 suffix cv sv hproc
  have htake : List.Forall₂ LevelEvolves (r.levels.take start)
      (r.levels.take start) :=
    List.forall₂_same.mpr (fun x _ => LevelEvolves_refl x)
  have hall := List.rel_append htake hsuf
  simp only [] at hall
  rw [List.take_append_drop] at hall
  exact hall

theorem seekList_evolves : ∀ (ts : List Nat) (r r2 : Reader),
    skip_reader.seekList r ts = some r2 →
    r2.data = r.data ∧ r2.skip0 = r.skip0 ∧ r2.skipn = r.skipn ∧
    List.Forall₂ LevelEvolves r.levels r2.levels := by
  intro ts
  induction ts with
  | nil =>
    intro r r2 h
    simp only [skip_reader.seekList, Option.some.injEq] at h
    rw [← h]
    exact ⟨rfl, rfl, rfl, List.forall₂_same.mpr (fun x _ => LevelEvolves_refl x)⟩
  | cons t ts2 ih =>
    intro r r2 h
    unfold skip_reader.seekList at h
    split at h
    · exact absurd h (by simp)
    · rename_i p res ra h1
      obtain ⟨e1, e2, e3, e4⟩ := seek_evolves r t res ra h1
      obtain ⟨f1, f2, f3, f4⟩ := ih ra r2 h
      refine ⟨by rw [f1, e1], by rw [f2, e2], by rw [f3, e3], ?_⟩
      rw [List.forall₂_iff_get] at e4 f4 ⊢
      obtain ⟨el, eg⟩ := e4
      obtain ⟨fl, fg⟩ := f4
      refine ⟨by omega, fun i h1i h2i => ?_⟩
      exact LevelEvolves_trans (eg i h1i (by omega)) (fg i (by omega) h2i)

/-- C6: during `seek`, `seek_skip` repositions a level's stream only when
the recorded child offset is strictly ahead of the cursor; consequently,
across every sequence of `seek` calls with non-decreasing targets, no
level's stream cursor ever moves backward. -/
theorem c6_no_backward_seek :
    (∀ data lv ptr sk lv2,
      skip_reader.seek_skip data lv ptr sk = some lv2 → lv2.pos ≠ lv.pos →
        lv.pos < lv.lbegin + ptr) ∧
    (∀ (r : Reader) (ts : List Nat) (r2 : Reader), List.Chain' (· ≤ ·) ts →
      skip_reader.seekList r ts = some r2 →
      r2.levels.length = r.levels.length ∧
      ∀ i, (r.levels.getD i default).pos ≤ (r2.levels.getD i default).pos) := by
  constructor
  · intro data lv ptr sk lv2 h hne
    unfold skip_reader.seek_skip at h
    by_cases hc : lv.pos < lv.lbegin + ptr
    · exact hc
    · rw [if_neg hc] at h
      simp only [Option.some.injEq] at h
      rw [← h] at hne
      exact absurd rfl hne
  · intro r ts r2 _hchain h
    obtain ⟨_, _, _, h4⟩ := seekList_evolves ts r r2 h
    rw [List.forall₂_iff_get] at h4
    obtain ⟨hlen, hg⟩ := h4
    refine ⟨by omega, fun i => ?_⟩
    by_cases hi : i < r.levels.length
    · have hle := (hg i hi (by omega)).2.2.2.1
      have hi2 : i < r2.levels.length := by omega
      have g1 : r.levels.getD i default = r.levels.get ⟨i, hi⟩ := by
        simp [List.getD_eq_getElem?_getD, List.getElem?_eq_getElem hi]
      have g2 : r2.levels.getD i default = r2.levels.get ⟨i, hi2⟩ := by
        simp [List.getD_eq_getElem?_getD, List.getElem?_eq_getElem hi2]
      rw [g1, g2]
      exact hle
    · have g1 : r.levels.getD i default = default := by
        simp [List.getD_eq_getElem?_getD,
          List.getElem?_eq_none (show r.levels.length ≤ i by omega)]
      have g2 : r2.levels.getD i default = default := by
        simp [List.getD_eq_getElem?_getD,
          List.getElem?_eq_none (show r2.levels.length ≤ i by omega)]
      rw [g1, g2]

/-- C6 witness: the sequence-level statement at the concrete reader with
the non-decreasing targets 5, 10. -/
theorem c6_witness :
    List.Chain' (· ≤ ·) [5, 10] ∧
    skip_reader.seekList concReader [5, 10] = some c6after ∧
    c6after.levels.length = concReader.levels.length ∧
    ∀ i, (concReader.levels.getD i default).pos
      ≤ (c6after.levels.getD i default).pos :=
  ⟨by simp, by decide,
    c6_no_backward_seek.2 concReader [5, 10] c6after (by simp) (by decide)⟩

/-! ### C8: `reset` versus a freshly loaded reader -/

theorem rlevel_eq {a b : RLevel} (h1 : a.pos = b.pos) (h2 : a.lbegin = b.lbegin)
    (h3 : a.lend = b.lend) (h4 : a.child = b.child) (h5 : a.step = b.step)
    (h6 : a.skipped = b.skipped) (h7 : a.doc = b.doc) : a = b := by
  cases a
  cases b
  simp_all

theorem getD_drop {α : Type} (d : α) : ∀ (n : Nat) (l : List α) (i : Nat),
    (l.drop n).getD i d = l.getD (n + i) d := by
  intro n
  induction n with
  | zero => intro l i; simp
  | succ m ih =>
    intro l i
    cases l with
    | nil => simp
    | cons a t =>
      have : (a :: t).drop (m + 1) = t.drop m := by simp
      rw [this, ih t i]
      have harith : m + 1 + i = (m + i) + 1 := by omega
      rw [harith]
      simp

theorem skipLoop_shape (wcb : Nat → List Nat) (skipn : Nat) :
    ∀ (ls : List (List Nat)) (num count child : Nat),
      ∃ k, k ≤ ls.length ∧
        (skip_writer.skipLoop wcb skipn num count child ls).length = ls.length ∧
        (∀ i, i < k → ∃ extra, extra ≠ [] ∧
          (skip_writer.skipLoop wcb skipn num count child ls).getD i []
            = ls.getD i [] ++ extra) ∧
        (skip_writer.skipLoop wcb skipn num count child ls).drop k
          = ls.drop k := by
  intro ls
  induction ls with
  | nil =>
    intro num count child
    have h0 : skip_writer.skipLoop wcb skipn num count child [] = [] := rfl
    exact ⟨0, by simp, by rw [h0], fun i hi => absurd hi (by omega), by rw [h0]⟩
  | cons l ls2 ih =>
    intro num count child
    by_cases hc : count % skipn = 0
    · obtain ⟨k, hk, hlen, hex, hdrop⟩ :=
        ih (num + 1) (count / skipn) (l ++ wcb num).length
      refine ⟨k + 1, by simp only [List.length_cons]; omega, ?_, ?_, ?_⟩
      · have hlen2 := hlen
        simp only [skip_writer.skipLoop]
        rw [if_pos hc]
        simp only [List.length_cons, List.length_append] at hlen2 ⊢
        omega
      · intro i hi
        cases i with
        | zero =>
          refine ⟨wcb num ++ writeVNat child, ?_, ?_⟩
          · simp [writeVNat_ne_nil child]
          · simp [skip_writer.skipLoop, hc]
        | succ i2 =>
          obtain ⟨extra, he, heq⟩ := hex i2 (by omega)
          refine ⟨extra, he, ?_⟩
          simp only [skip_writer.skipLoop, hc, if_pos, List.getD_cons_succ]
          simpa using heq
      · simp only [skip_writer.skipLoop]
        rw [if_pos hc]
        simpa using hdrop
    · exact ⟨0, by omega, by simp [skip_writer.skipLoop, hc],
        fun i hi => absurd hi (by omega), by simp [skip_writer.skipLoop, hc]⟩

theorem skip_shape (wcb : Nat → List Nat) (skip0 skipn c : Nat)
    (ls res : List (List Nat)) (hcb : wcb 0 ≠ [])
    (h : skip_writer.skip wcb skip0 skipn c ls = some res) :
    ∃ k, k ≤ ls.length ∧ res.length = ls.length ∧
      (∀ i, i < k → ∃ extra, extra ≠ [] ∧
        res.getD i [] = ls.getD i [] ++ extra) ∧
      res.drop k = ls.drop k := by
  cases ls with
  | nil => exact absurd h (by simp [skip_writer.skip])
  | cons l0 rest =>
    simp only [skip_writer.skip] at h
    by_cases hc : c % skip0 ≠ 0
    · rw [if_pos hc] at h
      simp only [Option.some.injEq] at h
      exact ⟨0, by omega, by rw [← h], fun i hi => absurd hi (by omega),
        by rw [← h]⟩
    · rw [if_neg hc] at h
      simp only [Option.some.injEq] at h
      obtain ⟨k, hk, hlen, hex, hdrop⟩ :=
        skipLoop_shape wcb skipn rest 1 (c / skip0) (l0 ++ wcb 0).length
      refine ⟨k + 1, by simp only [List.length_cons]; omega, ?_, ?_, ?_⟩
      · rw [← h]
        have hlen2 := hlen
        simp only [List.length_cons, List.length_append] at hlen2 ⊢
        omega
      · intro i hi
        cases i with
        | zero =>
          refine ⟨wcb 0, hcb, ?_⟩
          rw [← h]
          simp
        | succ i2 =>
          obtain ⟨extra, he, heq⟩ := hex i2 (by omega)
          refine ⟨extra, he, ?_⟩
          rw [← h]
          simpa using heq
      · rw [← h]
        simpa using hdrop

theorem DownwardClosed_of_shape (ls res : List (List Nat))
    (hdc : DownwardClosed ls) (k : Nat) (hlen : res.length = ls.length)
    (hex : ∀ i, i < k → ∃ extra, extra ≠ [] ∧
      res.getD i [] = ls.getD i [] ++ extra)
    (hdrop : res.drop k = ls.drop k) : DownwardClosed res := by
  intro i j hij hj hne
  by_cases hik : i < k
  · obtain ⟨extra, he, heq⟩ := hex i hik
    rw [heq]
    intro hh
    rw [List.append_eq_nil] at hh
    exact he hh.2
  · have hjk : k ≤ j := by omega
    have hres_j : res.getD j [] = ls.getD j [] := by
      have h1 := getD_drop ([] : List Nat) k res (j - k)
      have h2 := getD_drop ([] : List Nat) k ls (j - k)
      rw [hdrop] at h1
      rw [h1] at h2
      have harith : k + (j - k) = j := by omega
      rwa [harith] at h2
    have hres_i : res.getD i [] = ls.getD i [] := by
      have h1 := getD_drop ([] : List Nat) k res (i - k)
      have h2 := getD_drop ([] : List Nat) k ls (i - k)
      rw [hdrop] at h1
      rw [h1] at h2
      have harith : k + (i - k) = i := by omega
      rwa [harith] at h2
    rw [hres_i]
    rw [hres_j] at hne
    exact hdc i j hij (by omega) hne

theorem DownwardClosed_replicate (n : Nat) :
    DownwardClosed (List.replicate n []) := by
  intro i j _hij _hj hne
  exact absurd (by
    rw [List.getD_eq_getElem?_getD, List.getElem?_replicate]
    split <;> rfl) hne

theorem skipCalls_dc (skip0 skipn : Nat) :
    ∀ (calls : List ((Nat → List Nat) × Nat)) (st res : List (List Nat)),
      (∀ pc ∈ calls, pc.1 0 ≠ []) → DownwardClosed st →
      skipCalls skip0 skipn calls st = some res → DownwardClosed res := by
  intro calls
  induction calls with
  | nil =>
    intro st res _ hdc h
    simp only [skipCalls, Option.some.injEq] at h
    rw [← h]
    exact hdc
  | cons pc rest ih =>
    intro st res hcb hdc h
    obtain ⟨w, c⟩ := pc
    unfold skipCalls at h
    split at h
    · exact absurd h (by simp)
    · rename_i st2 h1
      obtain ⟨k, _, hlen, hex, hdrop⟩ := skip_shape w skip0 skipn c st st2
        (hcb (w, c) (by simp)) h1
      exact ih st2 res (fun pc2 hm => hcb pc2 (by simp [hm]))
        (DownwardClosed_of_shape st st2 hdc k hlen hex hdrop) h

theorem getD_reverse (ls : List (List Nat)) (m : Nat) (hm : m < ls.length) :
    ls.reverse.getD m [] = ls.getD (ls.length - 1 - m) [] := by
  have h1 : m < ls.reverse.length := by simpa using hm
  have h2 : ls.length - 1 - m < ls.length := by omega
  rw [List.getD_eq_getElem?_getD, List.getD_eq_getElem?_getD,
    List.getElem?_eq_getElem h1, List.getElem?_eq_getElem h2]
  simp

theorem dropWhile_nonempty : ∀ (rl : List (List Nat)),
    (∀ i j, i ≤ j → j < rl.length → rl.getD i [] ≠ [] → rl.getD j [] ≠ []) →
    ∀ b ∈ rl.dropWhile (fun l => l.length = 0), b.length ≠ 0 := by
  intro rl
  induction rl with
  | nil => intro _ b hb; simp at hb
  | cons a t ih =>
    intro hmono b hb
    by_cases ha : a.length = 0
    · rw [List.dropWhile_cons_of_pos (by simp [ha])] at hb
      apply ih ?_ b hb
      intro i j hij hj hne
      have hstep := hmono (i + 1) (j + 1) (by omega)
        (by simp only [List.length_cons]; omega) (by simpa using hne)
      simpa using hstep
    · rw [List.dropWhile_cons_of_neg (by simp [ha])] at hb
      have hane : a ≠ [] := fun hh => ha (by rw [hh]; rfl)
      rw [List.mem_cons] at hb
      cases hb with
      | inl he => rw [he]; exact ha
      | inr ht =>
        obtain ⟨n, hn⟩ := List.get_of_mem ht
        have hg : t.getD n.1 [] = t.get n := by
          rw [List.getD_eq_getElem?_getD, List.getElem?_eq_getElem n.2]
          rfl
        have h2 := hmono 0 (n.1 + 1) (by omega)
          (by simp only [List.length_cons]; omega) (by simpa using hane)
        rw [List.getD_cons_succ, hg, hn] at h2
        intro hbl
        exact h2 (by rw [List.length_eq_zero] at hbl; exact hbl)

theorem emitLevels_of_nonempty : ∀ bs : List (List Nat),
    (∀ b ∈ bs, b.length ≠ 0) →
    skip_writer.emitLevels bs = some (framesOf bs) := by
  intro bs
  induction bs with
  | nil => intro _; simp [skip_writer.emitLevels, framesOf]
  | cons b bs2 ih =>
    intro hne
    have hb := hne b (by simp)
    simp only [skip_writer.emitLevels]
    rw [if_neg hb, ih (fun x hx => hne x (by simp [hx]))]
    simp [framesOf, List.append_assoc]

theorem flush_of_dc (ls : List (List Nat)) (hdc : DownwardClosed ls) :
    skip_writer.flush ls
      = some (writeVNat (ls.reverse.dropWhile (fun l => l.length = 0)).length
          ++ framesOf (ls.reverse.dropWhile (fun l => l.length = 0))) ∧
    ∀ b ∈ ls.reverse.dropWhile (fun l => l.length = 0), b.length ≠ 0 := by
  have hrm : ∀ i j, i ≤ j → j < ls.reverse.length →
      ls.reverse.getD i [] ≠ [] → ls.reverse.getD j [] ≠ [] := by
    intro i j hij hj hne
    have hjlen : j < ls.length := by simpa using hj
    have hilen : i < ls.length := by omega
    rw [getD_reverse ls j hjlen]
    rw [getD_reverse ls i hilen] at hne
    exact hdc (ls.length - 1 - j) (ls.length - 1 - i) (by omega) (by omega) hne
  have hne := dropWhile_nonempty ls.reverse hrm
  refine ⟨?_, hne⟩
  simp only [skip_writer.flush]
  rw [emitLevels_of_nonempty _ hne]

/-! ### Loading the framed output of `flush` -/

theorem loadLevels_framed (skipn : Nat) : ∀ (bs : List (List Nat))
    (data C : List Nat) (apos step : Nat),
    (∀ b ∈ bs, b ≠ []) →
    data.drop apos = framesOf bs ++ C →
    ∃ lvls, skip_reader.loadLevels data skipn bs.length step apos
        = .ok (lvls, apos + (framesOf bs).length) ∧
      lvls.length = bs.length ∧
      ∀ i, i < bs.length →
        FreshLevelOn data (bs.getD i []) (step / skipn ^ i) false
          (lvls.getD i default) := by
  intro bs
  induction bs with
  | nil =>
    intro data C apos step _ _
    refine ⟨[], ?_, rfl, fun i hi => by simp at hi⟩
    simp [skip_reader.loadLevels, framesOf]
  | cons b bs2 ih =>
    intro data C apos step hne hdrop
    have hb : b ≠ [] := hne b (by simp)
    have hbl : ¬ (b.length = 0) := fun hh => hb (by rwa [List.length_eq_zero] at hh)
    have hfr : framesOf (b :: bs2) = writeVNat b.length ++ (b ++ framesOf bs2) := by
      simp [framesOf]
    rw [hfr] at hdrop
    have hread : readV data apos = some (b.length, apos + vlen b.length) :=
      readV_spec data apos b.length (b ++ framesOf bs2 ++ C)
        (by rw [hdrop]; simp [List.append_assoc])
    have hload : skip_reader.load_level data apos step
        = .ok { pos := apos + vlen b.length, lbegin := apos + vlen b.length,
                lend := apos + vlen b.length + b.length, child := 0,
                step := step, skipped := 0, doc := INVALID_DOC } := by
      unfold skip_reader.load_level
      rw [hread]
      simp [hbl]
    have hdropb : data.drop (apos + vlen b.length)
        = b ++ (framesOf bs2 ++ C) := by
      have h1 : data.drop (apos + vlen b.length)
          = (data.drop apos).drop (vlen b.length) := by
        rw [List.drop_drop]
      rw [h1, hdrop, List.append_assoc,
        List.drop_left' (show (writeVNat b.length).length = vlen b.length
          from rfl),
        List.append_assoc]
    have hdrop2 : data.drop (apos + vlen b.length + b.length)
        = framesOf bs2 ++ C := by
      have h1 : data.drop (apos + vlen b.length + b.length)
          = (data.drop (apos + vlen b.length)).drop b.length := by
        rw [List.drop_drop]
      rw [h1, hdropb, List.drop_left]
    obtain ⟨lvls2, hrec, hlen2, hget2⟩ := ih data C
      (apos + vlen b.length + b.length) (step / skipn)
      (fun x hx => hne x (by simp [hx])) hdrop2
    refine ⟨{ pos := apos + vlen b.length, lbegin := apos + vlen b.length,
              lend := apos + vlen b.length + b.length, child := 0,
              step := step, skipped := 0, doc := INVALID_DOC } :: lvls2,
      ?_, by simp [hlen2], ?_⟩
    · have hlc : (b :: bs2).length = bs2.length + 1 := by simp
      rw [hlc]
      simp only [skip_reader.loadLevels, hload, hrec]
      have harith : apos + vlen b.length + b.length + (framesOf bs2).length
          = apos + (framesOf (b :: bs2)).length := by
        rw [hfr]
        simp only [List.length_append, vlen]
        omega
      rw [harith]
    · intro i hi
      cases i with
      | zero =>
        refine ⟨rfl, rfl, by simp, rfl, rfl, rfl, framesOf bs2 ++ C, hdropb⟩
      | succ i2 =>
        have hi2 : i2 < bs2.length := by
          simp only [List.length_cons] at hi
          omega
        have hstep : step / skipn / skipn ^ i2 = step / skipn ^ (i2 + 1) := by
          rw [Nat.div_div_eq_div_mul, pow_succ, Nat.mul_comm (skipn ^ i2) skipn]
        have := hget2 i2 hi2
        rw [hstep] at this
        simpa using this

theorem getD_append_left {α : Type} (d : α) (l1 l2 : List α) (i : Nat)
    (h : i < l1.length) : (l1 ++ l2).getD i d = l1.getD i d := by
  rw [List.getD_eq_getElem?_getD, List.getD_eq_getElem?_getD,
    List.getElem?_append, if_pos h]

theorem getD_append_last {α : Type} (d : α) (l1 : List α) (x : α) :
    (l1 ++ [x]).getD l1.length d = x := by
  rw [List.getD_eq_getElem?_getD,
    List.getElem?_append_right (le_refl l1.length)]
  simp

theorem prepare_framed (skip0 skipn : Nat) (bs : List (List Nat))
    (hne : ∀ b ∈ bs, b ≠ []) :
    ∃ r, skip_reader.prepare skip0 skipn (writeVNat bs.length ++ framesOf bs)
        = .ok r ∧
      r.data = writeVNat bs.length ++ framesOf bs ∧
      r.skip0 = skip0 ∧ r.skipn = skipn ∧
      r.levels.length = bs.length ∧
      (∀ i, i + 1 < bs.length →
        FreshLevelOn r.data (bs.getD i [])
          (skip0 * skipn ^ (bs.length - 1) / skipn ^ i) false
          (r.levels.getD i default)) ∧
      (bs ≠ [] →
        FreshLevelOn r.data (bs.getD (bs.length - 1) []) skip0 true
          (r.levels.getD (bs.length - 1) default)) := by
  have hread : readV (writeVNat bs.length ++ framesOf bs) 0
      = some (bs.length, vlen bs.length) := by
    have := readV_spec (writeVNat bs.length ++ framesOf bs) 0 bs.length
      (framesOf bs) (by simp)
    simpa using this
  rcases List.eq_nil_or_concat bs with hnil | ⟨init, last, hcat⟩
  · subst hnil
    refine ⟨{ data := writeVNat ([] : List (List Nat)).length ++ framesOf [],
              skip0 := skip0, skipn := skipn, levels := [] }, ?_, rfl, rfl,
      rfl, by simp, fun i hi => by simp at hi,
      fun hne2 => absurd rfl hne2⟩
    unfold skip_reader.prepare
    rw [hread]
    simp
  · rw [List.concat_eq_append] at hcat
    subst hcat
    have hlen_bs : (init ++ [last]).length = init.length + 1 := by simp
    have hne_init : ∀ b ∈ init, b ≠ [] := fun b hb => hne b (by simp [hb])
    have hlast : last ≠ [] := hne last (by simp)
    have hlastlen : ¬ (last.length = 0) :=
      fun hh => hlast (by rwa [List.length_eq_zero] at hh)
    have hfr_app : framesOf (init ++ [last])
        = framesOf init ++ framesOf [last] := by
      simp [framesOf]
    have hdrop1 : (writeVNat (init ++ [last]).length
        ++ framesOf (init ++ [last])).drop (vlen (init ++ [last]).length)
        = framesOf init ++ framesOf [last] := by
      rw [List.drop_left'
        (show (writeVNat (init ++ [last]).length).length
          = vlen (init ++ [last]).length from rfl), hfr_app]
    obtain ⟨coarse, hload, hclen, hcget⟩ := loadLevels_framed skipn init
      (writeVNat (init ++ [last]).length ++ framesOf (init ++ [last]))
      (framesOf [last]) (vlen (init ++ [last]).length)
      (skip0 * skipn ^ ((init ++ [last]).length - 1)) hne_init hdrop1
    have hpos1 : (writeVNat (init ++ [last]).length
        ++ framesOf (init ++ [last])).drop
          (vlen (init ++ [last]).length + (framesOf init).length)
        = writeVNat last.length ++ (last ++ []) := by
      have h1 : (writeVNat (init ++ [last]).length
          ++ framesOf (init ++ [last])).drop
            (vlen (init ++ [last]).length + (framesOf init).length)
          = ((writeVNat (init ++ [last]).length
              ++ framesOf (init ++ [last])).drop
                (vlen (init ++ [last]).length)).drop
              (framesOf init).length := by
        rw [List.drop_drop]
      rw [h1, hdrop1, List.drop_left]
      simp [framesOf]
    have hreadf : readV (writeVNat (init ++ [last]).length
        ++ framesOf (init ++ [last]))
          (vlen (init ++ [last]).length + (framesOf init).length)
        = some (last.length, vlen (init ++ [last]).length
            + (framesOf init).length + vlen last.length) :=
      readV_spec _ _ last.length (last ++ []) hpos1
    have hloadf : skip_reader.load_level (writeVNat (init ++ [last]).length
        ++ framesOf (init ++ [last]))
          (vlen (init ++ [last]).length + (framesOf init).length) skip0
        = .ok { pos := vlen (init ++ [last]).length + (framesOf init).length
                  + vlen last.length,
                lbegin := vlen (init ++ [last]).length
                  + (framesOf init).length + vlen last.length,
                lend := vlen (init ++ [last]).length + (framesOf init).length
                  + vlen last.length + last.length,
                child := 0, step := skip0, skipped := 0,
                doc := INVALID_DOC } := by
      unfold skip_reader.load_level
      rw [hreadf]
      simp [hlastlen]
    have hdropf : (writeVNat (init ++ [last]).length
        ++ framesOf (init ++ [last])).drop
          (vlen (init ++ [last]).length + (framesOf init).length
            + vlen last.length)
        = last ++ [] := by
      have h1 : (writeVNat (init ++ [last]).length
          ++ framesOf (init ++ [last])).drop
            (vlen (init ++ [last]).length + (framesOf init).length
              + vlen last.length)
          = ((writeVNat (init ++ [last]).length
              ++ framesOf (init ++ [last])).drop
                (vlen (init ++ [last]).length + (framesOf init).length)).drop
              (vlen last.length) := by
        rw [List.drop_drop]
      rw [h1, hpos1,
        List.drop_left' (show (writeVNat last.length).length
          = vlen last.length from rfl)]
    refine ⟨{ data := writeVNat (init ++ [last]).length
                ++ framesOf (init ++ [last]),
              skip0 := skip0, skipn := skipn,
              levels := coarse
                ++ [{ pos := vlen (init ++ [last]).length
                        + (framesOf init).length + vlen last.length,
                      lbegin := vlen (init ++ [last]).length
                        + (framesOf init).length + vlen last.length,
                      lend := vlen (init ++ [last]).length
                        + (framesOf init).length + vlen last.length
                        + last.length,
                      child := UNDEFINED, step := skip0, skipped := 0,
                      doc := INVALID_DOC }] },
      ?_, rfl, rfl, rfl, by simp [hclen], ?_, ?_⟩
    · unfold skip_reader.prepare
      rw [hread]
      simp only []
      rw [if_neg (by simp)]
      have harg : (init ++ [last]).length - 1 = init.length := by simp
      rw [harg] at hload
      rw [harg]
      simp only [hload, hloadf]
    · intro i hi
      have hii : i < init.length := by
        rw [hlen_bs] at hi
        omega
      simp only []
      rw [getD_append_left default coarse _ i (by rw [hclen]; exact hii),
        getD_append_left [] init [last] i hii]
      exact hcget i hii
    · intro _
      have hidx : (init ++ [last]).length - 1 = init.length := by simp
      simp only []
      rw [hidx]
      rw [getD_append_last [] init last]
      have hg2 := getD_append_last default coarse
        ({ pos := vlen (init ++ [last]).length + (framesOf init).length
              + vlen last.length,
            lbegin := vlen (init ++ [last]).length + (framesOf init).length
              + vlen last.length,
            lend := vlen (init ++ [last]).length + (framesOf init).length
              + vlen last.length + last.length,
            child := UNDEFINED, step := skip0, skipped := 0,
            doc := INVALID_DOC } : RLevel)
      rw [hclen] at hg2
      rw [hg2]
      exact ⟨rfl, rfl, rfl, rfl, rfl, rfl, [], hdropf⟩

/-! ### C10: downward closure of the writer's level buffers -/

/-- C10, counterexample: a `skip` call whose write callback emits no bytes
at level 0 leaves level 0 empty while the child offset written into level 1
makes level 1 non-empty, so the claimed invariant (a non-empty level forces
every finer level non-empty) fails after a single `skip` call; `flush` on
that state then fails its `assert(length)` instead of emitting only
positive lengths. -/
theorem c10_counterexample :
    skipCalls 2 2 [((fun _ => ([] : List Nat)), 4)] (List.replicate 2 [])
      = some [[], [0]] ∧
    ¬ DownwardClosed [[], [0]] ∧
    skip_writer.flush [[], [0]] = none := by
  refine ⟨rfl, fun h => ?_, rfl⟩
  exact h 0 1 (by omega) (by simp) (by simp) rfl

/-- C10, amended: after any sequence of `skip_writer::skip` calls starting
from freshly prepared (empty) level buffers, PROVIDED every call's write
callback emits at least one byte at level 0, the buffers are downward
closed (a non-empty level forces every finer level non-empty); hence
`flush` succeeds, every level it emits has a strictly positive byte
length, and `skip_reader::prepare` on the flushed bytes succeeds for every
reader parameterisation — in particular it never reports the zero-length
corruption error. -/
theorem c10_downward_closed (skip0 skipn n : Nat)
    (calls : List ((Nat → List Nat) × Nat)) (res : List (List Nat))
    (hcb : ∀ pc ∈ calls, pc.1 0 ≠ [])
    (hrun : skipCalls skip0 skipn calls (List.replicate n []) = some res) :
    DownwardClosed res ∧
    ∃ out, skip_writer.flush res = some out ∧
      (∀ b ∈ res.reverse.dropWhile (fun l => l.length = 0), b.length ≠ 0) ∧
      ∀ s0 s1, ∃ r, skip_reader.prepare s0 s1 out = .ok r := by
  have hdc := skipCalls_dc skip0 skipn calls (List.replicate n []) res hcb
    (DownwardClosed_replicate n) hrun
  obtain ⟨hflush, hne⟩ := flush_of_dc res hdc
  refine ⟨hdc, _, hflush, hne, fun s0 s1 => ?_⟩
  have hne2 : ∀ b ∈ res.reverse.dropWhile (fun l => l.length = 0),
      b ≠ [] := by
    intro b hb hbe
    exact hne b hb (by rw [hbe]; rfl)
  obtain ⟨r, hr, _⟩ := prepare_framed s0 s1 _ hne2
  exact ⟨r, hr⟩

/-- C10, witness: one `skip` call with a callback writing the byte 7,
`skip_0 = skip_n = 2`, running count 2, over two fresh levels. -/
theorem c10_witness :
    DownwardClosed [[7], []] ∧
    ∃ out, skip_writer.flush [[7], []] = some out ∧
      (∀ b ∈ ([[7], []] : List (List Nat)).reverse.dropWhile
          (fun l => l.length = 0), b.length ≠ 0) ∧
      ∀ s0 s1, ∃ r, skip_reader.prepare s0 s1 out = .ok r :=
  c10_downward_closed 2 2 2 [((fun _ => [7]), 2)] [[7], []]
    (by
      intro pc hpc
      rw [List.mem_singleton] at hpc
      subst hpc
      simp)
    rfl

/-! ### C1: round trip.  Arithmetic groundwork -/

theorem vlen_ge_128 (v : Nat) (h : 128 ≤ v) : vlen v = vlen (v / 128) + 1 := by
  unfold vlen
  rw [writeVNat_unfold v]
  rw [if_neg (by omega)]
  simp

theorem vlen_le : ∀ (a : Nat), 1 ≤ a → ∀ v, v < 128 ^ a → vlen v ≤ a := by
  intro a
  induction a with
  | zero => intro h; omega
  | succ b ih =>
    intro _ v hv
    by_cases hb : v < 128
    · have : vlen v = 1 := by
        unfold vlen
        rw [writeVNat_unfold v, if_pos hb]
        rfl
      omega
    · rcases Nat.eq_zero_or_pos b with hb0 | hb1
      · subst hb0
        simp at hv
        omega
      · rw [vlen_ge_128 v (by omega)]
        have hdiv : v / 128 < 128 ^ b := by
          rw [Nat.div_lt_iff_lt_mul (by omega)]
          calc v < 128 ^ (b + 1) := hv
          _ = 128 ^ b * 128 := by rw [Nat.pow_succ]
        have := ih hb1 (v / 128) hdiv
        omega

theorem irsLog_pow_le (base : Nat) (hb : 2 ≤ base) :
    ∀ v, 1 ≤ v → base ^ irsLog v base ≤ v := by
  intro v
  induction v using Nat.strong_induction_on with
  | _ v ih =>
    intro hv
    rw [irsLog_unfold]
    by_cases h : base ≤ v
    · rw [if_pos ⟨hb, h⟩]
      have hd1 : 1 ≤ v / base := (Nat.one_le_div_iff (by omega)).mpr h
      have hlt : v / base < v := Nat.div_lt_self (by omega) (by omega)
      have := ih (v / base) hlt hd1
      calc base ^ (irsLog (v / base) base + 1)
          = base ^ irsLog (v / base) base * base := by rw [Nat.pow_succ]
      _ ≤ (v / base) * base := Nat.mul_le_mul_right base this
      _ ≤ v := by
          rw [Nat.mul_comm]
          exact Nat.mul_div_le v base
    · rw [if_neg (by tauto)]
      simpa using hv

theorem max_levels_pos (skip0 skipn count : Nat) (h : skip0 < count) :
    1 ≤ max_levels skip0 skipn count := by
  unfold max_levels
  rw [if_pos h]
  omega

theorem max_levels_step_le (skip0 skipn count : Nat) (h0 : 1 ≤ skip0)
    (hn : 2 ≤ skipn) (h : skip0 < count) :
    ∀ m, m < max_levels skip0 skipn count → skip0 * skipn ^ m ≤ count := by
  intro m hm
  unfold max_levels at hm
  rw [if_pos h] at hm
  have hd1 : 1 ≤ count / skip0 := (Nat.one_le_div_iff (by omega)).mpr (by omega)
  have hlog := irsLog_pow_le skipn hn (count / skip0) hd1
  have hmono : skipn ^ m ≤ skipn ^ irsLog (count / skip0) skipn :=
    Nat.pow_le_pow_right (by omega) (by omega)
  calc skip0 * skipn ^ m ≤ skip0 * (count / skip0) :=
        Nat.mul_le_mul_left skip0 (le_trans hmono hlog)
  _ ≤ count := Nat.mul_div_le count skip0

theorem stepOf_zero (skip0 skipn : Nat) : stepOf skip0 skipn 0 = skip0 := by
  simp [stepOf]

theorem stepOf_succ (skip0 skipn m : Nat) :
    stepOf skip0 skipn (m + 1) = stepOf skip0 skipn m * skipn := by
  simp [stepOf, Nat.pow_succ, Nat.mul_assoc]

theorem stepOf_pos (skip0 skipn m : Nat) (h0 : 1 ≤ skip0) (hn : 1 ≤ skipn) :
    1 ≤ stepOf skip0 skipn m :=
  Nat.mul_pos h0 (Nat.pos_pow_of_pos m hn)

theorem div_succ_of_dvd (s c : Nat) (h : s ∣ c) (hc : 1 ≤ c) :
    c / s = (c - 1) / s + 1 := by
  have h1 : c - 1 + 1 = c := by omega
  have := Nat.succ_div (c - 1) s
  rw [h1] at this
  rw [this, if_pos h]

theorem div_succ_of_not_dvd (s c : Nat) (h : ¬ s ∣ c) (hc : 1 ≤ c) :
    c / s = (c - 1) / s := by
  have h1 : c - 1 + 1 = c := by omega
  have := Nat.succ_div (c - 1) s
  rw [h1] at this
  rw [this, if_neg h]
  omega

theorem entCount_mul_le (skip0 skipn : Nat) (docs : List Nat) (m j : Nat)
    (h0 : 1 ≤ skip0) (hn : 1 ≤ skipn)
    (hj : j ≤ entCount skip0 skipn docs m) :
    j * stepOf skip0 skipn m ≤ docs.length := by
  have hs := stepOf_pos skip0 skipn m h0 hn
  exact (Nat.le_div_iff_mul_le (by omega)).mp hj

theorem entCount_skipn_le (skip0 skipn : Nat) (docs : List Nat) (m : Nat) :
    entCount skip0 skipn docs (m + 1) * skipn ≤ entCount skip0 skipn docs m := by
  unfold entCount
  rw [stepOf_succ, ← Nat.div_div_eq_div_mul]
  exact Nat.div_mul_le_self _ skipn

/-! ### C1: structure of the writer level buffers -/

theorem lvlBuf_zero (skip0 skipn : Nat) (docs : List Nat) (m : Nat) :
    lvlBuf skip0 skipn docs m 0 = [] := by
  simp [lvlBuf]

theorem lvlBuf_succ (skip0 skipn : Nat) (docs : List Nat) (m k : Nat) :
    lvlBuf skip0 skipn docs m (k + 1)
      = lvlBuf skip0 skipn docs m k ++ levelEntry skip0 skipn docs m (k + 1) := by
  unfold lvlBuf
  rw [List.range_succ, List.flatMap_append]
  simp

theorem levelEntry_zero_eq (skip0 skipn : Nat) (docs : List Nat) (t : Nat) :
    levelEntry skip0 skipn docs 0 t = writeVNat (dAt docs (t * skip0)) := by
  simp [levelEntry]

theorem levelEntry_pos (skip0 skipn : Nat) (docs : List Nat) (m t : Nat)
    (ht : 1 ≤ t) (hn : 1 ≤ skipn) :
    levelEntry skip0 skipn docs (m + 1) t
      = writeVNat (dAt docs (t * stepOf skip0 skipn (m + 1))) ++
        writeVNat (resumeOff skip0 skipn docs m (t * skipn)) := by
  have hne : ¬ (t * skipn = 0) := Nat.mul_ne_zero (by omega) (by omega)
  unfold resumeOff lvlBuf
  rw [if_neg hne]
  simp [levelEntry, vlen]

theorem levelEntry_ne_nil (skip0 skipn : Nat) (docs : List Nat) (m t : Nat) :
    levelEntry skip0 skipn docs m t ≠ [] := by
  cases m with
  | zero =>
    rw [levelEntry_zero_eq]
    exact writeVNat_ne_nil _
  | succ m' =>
    intro h
    have h2 : (levelEntry skip0 skipn docs (m' + 1) t).length = 0 := by
      rw [h]; rfl
    simp only [levelEntry, List.length_append] at h2
    have := vlen_pos (dAt docs (t * stepOf skip0 skipn (m' + 1)))
    unfold vlen at this
    omega

theorem lvlBuf_prefix (skip0 skipn : Nat) (docs : List Nat) (m j k : Nat)
    (h : j ≤ k) :
    ∃ t, lvlBuf skip0 skipn docs m k = lvlBuf skip0 skipn docs m j ++ t := by
  induction k, h using Nat.le_induction with
  | base => exact ⟨[], by simp⟩
  | succ k hk ih =>
    rcases ih with ⟨t, ht⟩
    exact ⟨t ++ levelEntry skip0 skipn docs m (k + 1),
      by rw [lvlBuf_succ, ht, List.append_assoc]⟩

theorem lvlBuf_len_ge (skip0 skipn : Nat) (docs : List Nat) (m : Nat) :
    ∀ k, k ≤ (lvlBuf skip0 skipn docs m k).length := by
  intro k
  induction k with
  | zero => simp
  | succ k ih =>
    rw [lvlBuf_succ, List.length_append]
    have hne := levelEntry_ne_nil skip0 skipn docs m (k + 1)
    have : 1 ≤ (levelEntry skip0 skipn docs m (k + 1)).length := by
      cases h : levelEntry skip0 skipn docs m (k + 1) with
      | nil => exact absurd h hne
      | cons a t => simp
    omega

theorem lvlBuf_len_lt (skip0 skipn : Nat) (docs : List Nat) (m j k : Nat)
    (h : j < k) :
    (lvlBuf skip0 skipn docs m j).length < (lvlBuf skip0 skipn docs m k).length := by
  rcases lvlBuf_prefix skip0 skipn docs m (j + 1) k h with ⟨t, ht⟩
  rw [ht, lvlBuf_succ, List.length_append, List.length_append]
  have hne := levelEntry_ne_nil skip0 skipn docs m (j + 1)
  have : 1 ≤ (levelEntry skip0 skipn docs m (j + 1)).length := by
    cases h2 : levelEntry skip0 skipn docs m (j + 1) with
    | nil => exact absurd h2 hne
    | cons a t2 => simp
  omega

theorem lvlBuf_decomp (skip0 skipn : Nat) (docs : List Nat) (m j k : Nat)
    (h : j < k) :
    ∃ t, lvlBuf skip0 skipn docs m k
      = lvlBuf skip0 skipn docs m j ++ (levelEntry skip0 skipn docs m (j + 1) ++ t) := by
  rcases lvlBuf_prefix skip0 skipn docs m (j + 1) k h with ⟨t, ht⟩
  exact ⟨t, by rw [ht, lvlBuf_succ, List.append_assoc]⟩

/-! ### C1: byte-size bounds on the buffers -/

theorem dAt_lt (docs : List Nat) (hd : ∀ d ∈ docs, d < NO_MORE_DOCS)
    (i : Nat) : dAt docs i < NO_MORE_DOCS := by
  unfold dAt
  rw [List.getD_eq_getElem?_getD]
  cases h : docs[i - 1]? with
  | none =>
    unfold NO_MORE_DOCS
    simp
  | some d =>
    have hmem : d ∈ docs := List.mem_iff_getElem?.mpr ⟨i - 1, h⟩
    simpa using hd d hmem

theorem vlen_dAt_le (docs : List Nat) (hd : ∀ d ∈ docs, d < NO_MORE_DOCS)
    (i : Nat) : vlen (dAt docs i) ≤ 5 := by
  refine vlen_le 5 (by omega) _ ?_
  have := dAt_lt docs hd i
  have h2 : NO_MORE_DOCS < 128 ^ 5 := by norm_num [NO_MORE_DOCS]
  omega

theorem resumeOff_zero_j (skip0 skipn : Nat) (docs : List Nat) (m : Nat) :
    resumeOff skip0 skipn docs m 0 = 0 := by
  simp [resumeOff]

theorem resumeOff_le_lvlBuf (skip0 skipn : Nat) (docs : List Nat)
    (m j : Nat) (hn : 1 ≤ skipn) :
    resumeOff skip0 skipn docs m j ≤ (lvlBuf skip0 skipn docs m j).length := by
  cases j with
  | zero => rw [resumeOff_zero_j]; omega
  | succ j' =>
    unfold resumeOff
    rw [if_neg (by omega)]
    rw [lvlBuf_succ, List.length_append]
    simp only [Nat.add_sub_cancel]
    have hlen : vlen (dAt docs ((j' + 1) * stepOf skip0 skipn m))
        ≤ (levelEntry skip0 skipn docs m (j' + 1)).length := by
      cases m with
      | zero =>
        rw [levelEntry_zero_eq, stepOf_zero]
        exact le_refl _
      | succ m' =>
        rw [levelEntry_pos skip0 skipn docs m' (j' + 1) (by omega) hn,
          List.length_append]
        unfold vlen
        omega
    omega

theorem lvlBuf_len_le (skip0 skipn : Nat) (docs : List Nat)
    (h0 : 1 ≤ skip0) (hn : 1 ≤ skipn)
    (hd : ∀ d ∈ docs, d < NO_MORE_DOCS) (hN : docs.length < 2 ^ 32) :
    ∀ m k, k * stepOf skip0 skipn m ≤ docs.length →
      (lvlBuf skip0 skipn docs m k).length ≤ 15 * k := by
  intro m
  induction m with
  | zero =>
    intro k
    induction k with
    | zero => intro _; rw [lvlBuf_zero]; simp
    | succ k ihk =>
      intro hk
      have h1 : k * stepOf skip0 skipn 0 ≤ docs.length :=
        le_trans (Nat.mul_le_mul_right _ (by omega)) hk
      have h2 := ihk h1
      rw [lvlBuf_succ, List.length_append, levelEntry_zero_eq]
      have hv := vlen_dAt_le docs hd ((k + 1) * skip0)
      unfold vlen at hv
      omega
  | succ m' ihm =>
    intro k
    induction k with
    | zero => intro _; rw [lvlBuf_zero]; simp
    | succ k ihk =>
      intro hk
      have h1 : k * stepOf skip0 skipn (m' + 1) ≤ docs.length :=
        le_trans (Nat.mul_le_mul_right _ (by omega)) hk
      have h2 := ihk h1
      rw [lvlBuf_succ, List.length_append,
        levelEntry_pos skip0 skipn docs m' (k + 1) (by omega) hn,
        List.length_append]
      have hv1 := vlen_dAt_le docs hd ((k + 1) * stepOf skip0 skipn (m' + 1))
      have hchild : resumeOff skip0 skipn docs m' ((k + 1) * skipn)
          ≤ 15 * ((k + 1) * skipn) := by
        refine le_trans (resumeOff_le_lvlBuf skip0 skipn docs m' _ hn) ?_
        refine ihm ((k + 1) * skipn) ?_
        have harr : (k + 1) * skipn * stepOf skip0 skipn m'
            = (k + 1) * stepOf skip0 skipn (m' + 1) := by
          rw [stepOf_succ]; ring
        rw [harr]
        exact hk
      have hNle : (k + 1) * skipn ≤ docs.length := by
        have hs := stepOf_pos skip0 skipn m' h0 hn
        have : (k + 1) * skipn * stepOf skip0 skipn m' ≤ docs.length := by
          have harr : (k + 1) * skipn * stepOf skip0 skipn m'
              = (k + 1) * stepOf skip0 skipn (m' + 1) := by
            rw [stepOf_succ]; ring
          rw [harr]
          exact hk
        calc (k + 1) * skipn = (k + 1) * skipn * 1 := by omega
        _ ≤ (k + 1) * skipn * stepOf skip0 skipn m' :=
            Nat.mul_le_mul_left _ hs
        _ ≤ docs.length := this
      have hv2 : vlen (resumeOff skip0 skipn docs m' ((k + 1) * skipn)) ≤ 6 := by
        refine vlen_le 6 (by omega) _ ?_
        have hb : 15 * docs.length < 128 ^ 6 := by
          have : (2 : Nat) ^ 32 ≤ 128 ^ 6 / 15 := by norm_num
          have h15 : 15 * (2 ^ 32 : Nat) ≤ 128 ^ 6 := by norm_num
          omega
        have : 15 * ((k + 1) * skipn) ≤ 15 * docs.length :=
          Nat.mul_le_mul_left _ hNle
        omega
      unfold vlen at hv1 hv2
      omega

theorem resumeOff_ne_undefined (skip0 skipn : Nat) (docs : List Nat)
    (h0 : 1 ≤ skip0) (hn : 1 ≤ skipn)
    (hd : ∀ d ∈ docs, d < NO_MORE_DOCS) (hN : docs.length < 2 ^ 32)
    (m j : Nat) (hj : j * stepOf skip0 skipn m ≤ docs.length) :
    resumeOff skip0 skipn docs m j ≠ UNDEFINED := by
  have h1 := resumeOff_le_lvlBuf skip0 skipn docs m j hn
  have h2 := lvlBuf_len_le skip0 skipn docs h0 hn hd hN m j hj
  have hjN : j ≤ docs.length := by
    have hs := stepOf_pos skip0 skipn m h0 hn
    calc j = j * 1 := by omega
    _ ≤ j * stepOf skip0 skipn m := Nat.mul_le_mul_left _ hs
    _ ≤ docs.length := hj
  have : resumeOff skip0 skipn docs m j < 15 * 2 ^ 32 + 15 := by
    have : 15 * j ≤ 15 * docs.length := Nat.mul_le_mul_left _ hjN
    omega
  unfold UNDEFINED
  have hc : (15 : Nat) * 2 ^ 32 + 15 < 18446744073709551615 := by norm_num
  omega

/-! ### C1: what the writer's `skip` calls put into the buffers -/

theorem stepOf_dvd_add (skip0 skipn m k : Nat) :
    stepOf skip0 skipn m ∣ stepOf skip0 skipn (m + k) :=
  ⟨skipn ^ k, by simp [stepOf, Nat.pow_add, Nat.mul_assoc]⟩

theorem skip0_dvd_stepOf (skip0 skipn m : Nat) :
    skip0 ∣ stepOf skip0 skipn m :=
  ⟨skipn ^ m, rfl⟩

theorem skipLoop_chr (skip0 skipn : Nat) (docs : List Nat) (c : Nat)
    (h0 : 1 ≤ skip0) (hn : 1 ≤ skipn) (hc : 1 ≤ c) :
    ∀ (ls : List (List Nat)) (num : Nat), 1 ≤ num →
      stepOf skip0 skipn (num - 1) ∣ c →
      (∀ k, k < ls.length → ls.getD k []
        = lvlBuf skip0 skipn docs (num + k)
            ((c - 1) / stepOf skip0 skipn (num + k))) →
      (skip_writer.skipLoop (fun _ => writeVNat (dAt docs c)) skipn num
          (c / stepOf skip0 skipn (num - 1))
          (resumeOff skip0 skipn docs (num - 1)
            (c / stepOf skip0 skipn (num - 1))) ls).length = ls.length ∧
      ∀ k, k < ls.length →
        (skip_writer.skipLoop (fun _ => writeVNat (dAt docs c)) skipn num
            (c / stepOf skip0 skipn (num - 1))
            (resumeOff skip0 skipn docs (num - 1)
              (c / stepOf skip0 skipn (num - 1))) ls).getD k []
          = lvlBuf skip0 skipn docs (num + k) (c / stepOf skip0 skipn (num + k)) := by
  intro ls
  induction ls with
  | nil =>
    intro num hnum hdvd hbuf
    exact ⟨rfl, fun k hk => by simp at hk⟩
  | cons l ls ih =>
    intro num hnum hdvd hbuf
    have hnum1 : num - 1 + 1 = num := by omega
    have hpos : 1 ≤ stepOf skip0 skipn (num - 1) :=
      stepOf_pos skip0 skipn (num - 1) h0 hn
    have hstep : stepOf skip0 skipn num = stepOf skip0 skipn (num - 1) * skipn := by
      rw [← stepOf_succ, hnum1]
    have hceq : stepOf skip0 skipn (num - 1) * (c / stepOf skip0 skipn (num - 1)) = c :=
      Nat.mul_div_cancel' hdvd
    have hiff : (c / stepOf skip0 skipn (num - 1)) % skipn = 0
        ↔ stepOf skip0 skipn num ∣ c := by
      constructor
      · intro h
        obtain ⟨t, ht⟩ := Nat.dvd_iff_mod_eq_zero.mpr h
        refine ⟨t, ?_⟩
        rw [hstep, ← hceq, ht]
        ring
      · intro h
        obtain ⟨t, ht⟩ := h
        rw [hstep] at ht
        have hq' : c / stepOf skip0 skipn (num - 1) = skipn * t := by
          rw [ht, Nat.mul_assoc, Nat.mul_div_cancel_left _ (by omega)]
        rw [hq']
        exact Nat.mul_mod_right skipn t
    by_cases hdn : stepOf skip0 skipn num ∣ c
    · have hcond := hiff.mpr hdn
      have hq1 : 1 ≤ c / stepOf skip0 skipn num := by
        have hle : stepOf skip0 skipn num ≤ c := Nat.le_of_dvd (by omega) hdn
        have hp : 1 ≤ stepOf skip0 skipn num := stepOf_pos skip0 skipn num h0 hn
        exact (Nat.one_le_div_iff (by omega)).mpr hle
      have hqq : c / stepOf skip0 skipn (num - 1)
          = skipn * (c / stepOf skip0 skipn num) := by
        obtain ⟨q, hq⟩ := hdn
        have hp2 : 0 < stepOf skip0 skipn num := stepOf_pos skip0 skipn num h0 hn
        rw [hq, Nat.mul_div_cancel_left q hp2, hstep, Nat.mul_assoc,
          Nat.mul_div_cancel_left _ (show 0 < stepOf skip0 skipn (num - 1) from hpos)]
      have hl : l = lvlBuf skip0 skipn docs num
          ((c / stepOf skip0 skipn num) - 1) := by
        have := hbuf 0 (by simp)
        simp only [List.getD_cons_zero, Nat.add_zero] at this
        rw [this, div_succ_of_dvd _ _ hdn hc]
        simp
      have hqmul : (c / stepOf skip0 skipn num) * stepOf skip0 skipn num = c :=
        Nat.div_mul_cancel hdn
      have hhead : l ++ writeVNat (dAt docs c)
          ++ writeVNat (resumeOff skip0 skipn docs (num - 1)
              (c / stepOf skip0 skipn (num - 1)))
          = lvlBuf skip0 skipn docs num (c / stepOf skip0 skipn num) := by
        rw [hl]
        have hq2 : c / stepOf skip0 skipn num
            = (c / stepOf skip0 skipn num - 1) + 1 := by omega
        rw [hq2, lvlBuf_succ, ← hq2]
        rw [show levelEntry skip0 skipn docs num (c / stepOf skip0 skipn num)
            = levelEntry skip0 skipn docs ((num - 1) + 1)
                (c / stepOf skip0 skipn num) from by rw [hnum1]]
        rw [levelEntry_pos skip0 skipn docs (num - 1)
          (c / stepOf skip0 skipn num) hq1 hn]
        rw [show c / stepOf skip0 skipn num * stepOf skip0 skipn ((num - 1) + 1)
            = c from by rw [hnum1]; exact hqmul]
        rw [show c / stepOf skip0 skipn num * skipn
            = c / stepOf skip0 skipn (num - 1) from by rw [hqq]; ring]
        rw [List.append_assoc]
      have hplen : (l ++ writeVNat (dAt docs c)).length
          = resumeOff skip0 skipn docs num (c / stepOf skip0 skipn num) := by
        unfold resumeOff
        rw [if_neg (by omega), hl]
        rw [show c / stepOf skip0 skipn num * stepOf skip0 skipn num = c from hqmul]
        simp [vlen]
      have hcount : c / stepOf skip0 skipn (num - 1) / skipn
          = c / stepOf skip0 skipn num := by
        rw [hqq, Nat.mul_comm, Nat.mul_div_cancel _ (by omega)]
      have hbuf' : ∀ k, k < ls.length → ls.getD k []
          = lvlBuf skip0 skipn docs ((num + 1) + k)
              ((c - 1) / stepOf skip0 skipn ((num + 1) + k)) := by
        intro k hk
        have := hbuf (k + 1) (by simp; omega)
        simp only [List.getD_cons_succ] at this
        rw [this, show num + (k + 1) = num + 1 + k from by omega]
      have ihr := ih (num + 1) (by omega)
        (by simp only [Nat.add_sub_cancel]; exact hdn) hbuf'
      simp only [Nat.add_sub_cancel] at ihr
      obtain ⟨ihlen, ihget⟩ := ihr
      simp only [skip_writer.skipLoop]
      rw [if_pos hcond]
      rw [hcount, hplen]
      refine ⟨by simp [ihlen], ?_⟩
      intro k hk
      cases k with
      | zero =>
        simp only [List.getD_cons_zero, Nat.add_zero]
        rw [← hhead, List.append_assoc]
      | succ k' =>
        simp only [List.getD_cons_succ]
        have hk' : k' < ls.length := by simp at hk; omega
        rw [ihget k' hk', show num + 1 + k' = num + (k' + 1) from by omega]
    · have hcond : ¬ ((c / stepOf skip0 skipn (num - 1)) % skipn = 0) :=
        fun h => hdn (hiff.mp h)
      simp only [skip_writer.skipLoop]
      rw [if_neg hcond]
      refine ⟨rfl, ?_⟩
      intro k hk
      have hnd : ¬ stepOf skip0 skipn (num + k) ∣ c := by
        intro hdd
        exact hdn (dvd_trans (stepOf_dvd_add skip0 skipn num k) hdd)
      rw [div_succ_of_not_dvd _ _ hnd hc]
      exact hbuf k hk

theorem skip_chr (skip0 skipn : Nat) (docs : List Nat) (c : Nat)
    (h0 : 1 ≤ skip0) (hn : 1 ≤ skipn) (hc : 1 ≤ c) (st : List (List Nat))
    (hne : st ≠ [])
    (hbuf : ∀ m, m < st.length → st.getD m []
      = lvlBuf skip0 skipn docs m ((c - 1) / stepOf skip0 skipn m)) :
    ∃ st2, skip_writer.skip (fun _ => writeVNat (dAt docs c)) skip0 skipn c st
        = some st2 ∧ st2.length = st.length ∧
      ∀ m, m < st.length → st2.getD m []
        = lvlBuf skip0 skipn docs m (c / stepOf skip0 skipn m) := by
  cases st with
  | nil => exact absurd rfl hne
  | cons l0 rest =>
    by_cases hdvd : skip0 ∣ c
    · have hcond : ¬ (c % skip0 ≠ 0) := by
        have := Nat.dvd_iff_mod_eq_zero.mp hdvd
        omega
      have hs0 : stepOf skip0 skipn 0 ∣ c := by rw [stepOf_zero]; exact hdvd
      have hq1 : 1 ≤ c / stepOf skip0 skipn 0 := by
        have hle : stepOf skip0 skipn 0 ≤ c := Nat.le_of_dvd (by omega) hs0
        have hp : 1 ≤ stepOf skip0 skipn 0 := stepOf_pos skip0 skipn 0 h0 hn
        exact (Nat.one_le_div_iff (by omega)).mpr hle
      have hqmul : (c / stepOf skip0 skipn 0) * stepOf skip0 skipn 0 = c :=
        Nat.div_mul_cancel hs0
      have hl0 : l0 = lvlBuf skip0 skipn docs 0
          ((c / stepOf skip0 skipn 0) - 1) := by
        have := hbuf 0 (by simp)
        simp only [List.getD_cons_zero] at this
        rw [this, div_succ_of_dvd _ _ hs0 hc]
        simp
      have hb0 : l0 ++ writeVNat (dAt docs c)
          = lvlBuf skip0 skipn docs 0 (c / stepOf skip0 skipn 0) := by
        rw [hl0]
        have hq2 : c / stepOf skip0 skipn 0
            = (c / stepOf skip0 skipn 0 - 1) + 1 := by omega
        rw [hq2, lvlBuf_succ, ← hq2, levelEntry_zero_eq]
        rw [show c / stepOf skip0 skipn 0 * skip0 = c from by
          calc c / stepOf skip0 skipn 0 * skip0
              = c / stepOf skip0 skipn 0 * stepOf skip0 skipn 0 := by
                rw [stepOf_zero]
          _ = c := hqmul]
      have hb0len : (l0 ++ writeVNat (dAt docs c)).length
          = resumeOff skip0 skipn docs 0 (c / stepOf skip0 skipn 0) := by
        unfold resumeOff
        rw [if_neg (by omega), hl0]
        rw [show c / stepOf skip0 skipn 0 * stepOf skip0 skipn 0 = c from hqmul]
        simp [vlen]
      have hbuf' : ∀ k, k < rest.length → rest.getD k []
          = lvlBuf skip0 skipn docs (1 + k)
              ((c - 1) / stepOf skip0 skipn (1 + k)) := by
        intro k hk
        have := hbuf (k + 1) (by simp; omega)
        simp only [List.getD_cons_succ] at this
        rw [this, show k + 1 = 1 + k from by omega]
      have hloop := skipLoop_chr skip0 skipn docs c h0 hn hc rest 1 (by omega)
        (by simp only [Nat.sub_self]; exact hs0) hbuf'
      simp only [Nat.sub_self] at hloop
      obtain ⟨hlen, hget⟩ := hloop
      have hdiv0 : c / skip0 = c / stepOf skip0 skipn 0 := by rw [stepOf_zero]
      refine ⟨(l0 ++ writeVNat (dAt docs c)) ::
        skip_writer.skipLoop (fun _ => writeVNat (dAt docs c)) skipn 1
          (c / skip0) (l0 ++ writeVNat (dAt docs c)).length rest, ?_, ?_, ?_⟩
      · simp only [skip_writer.skip]
        rw [if_neg hcond]
      · simp only [List.length_cons]
        rw [hdiv0, hb0len, hlen]
      · intro m hm
        cases m with
        | zero =>
          simp only [List.getD_cons_zero]
          exact hb0
        | succ m' =>
          simp only [List.getD_cons_succ]
          have hm' : m' < rest.length := by simp at hm; omega
          rw [hdiv0, hb0len, hget m' hm',
            show 1 + m' = m' + 1 from by omega]
    · have hcond : c % skip0 ≠ 0 := by
        intro h
        exact hdvd (Nat.dvd_iff_mod_eq_zero.mpr h)
      refine ⟨l0 :: rest, ?_, rfl, ?_⟩
      · simp only [skip_writer.skip]
        rw [if_pos hcond]
      · intro m hm
        have hnd : ¬ stepOf skip0 skipn m ∣ c := by
          intro hdd
          exact hdvd (dvd_trans (skip0_dvd_stepOf skip0 skipn m) hdd)
        rw [div_succ_of_not_dvd _ _ hnd hc]
        exact hbuf m hm

theorem skipAll_chr (skip0 skipn : Nat) (docs : List Nat)
    (h0 : 1 ≤ skip0) (hn : 1 ≤ skipn) :
    ∀ (rem i : Nat) (st : List (List Nat)), st ≠ [] →
      (∀ m, m < st.length → st.getD m []
        = lvlBuf skip0 skipn docs m (i / stepOf skip0 skipn m)) →
      ∃ st2, skipAll skip0 skipn docs (i + 1) rem st = some st2 ∧
        st2.length = st.length ∧
        ∀ m, m < st.length → st2.getD m []
          = lvlBuf skip0 skipn docs m ((i + rem) / stepOf skip0 skipn m) := by
  intro rem
  induction rem with
  | zero =>
    intro i st hne hbuf
    exact ⟨st, rfl, rfl, by simpa using hbuf⟩
  | succ rem' ih =>
    intro i st hne hbuf
    have hwcb : (fun _ : Nat => writeVNat (docs.getD (i + 1 - 1) 0))
        = (fun _ : Nat => writeVNat (dAt docs (i + 1))) := rfl
    have hbuf2 : ∀ m, m < st.length → st.getD m []
        = lvlBuf skip0 skipn docs m ((i + 1 - 1) / stepOf skip0 skipn m) := by
      simpa using hbuf
    obtain ⟨st2, hst2, hlen2, hget2⟩ := skip_chr skip0 skipn docs (i + 1)
      h0 hn (by omega) st hne hbuf2
    have hne2 : st2 ≠ [] := by
      intro h
      rw [h] at hlen2
      cases st with
      | nil => exact hne rfl
      | cons a t => simp at hlen2
    have hbuf3 : ∀ m, m < st2.length → st2.getD m []
        = lvlBuf skip0 skipn docs m ((i + 1) / stepOf skip0 skipn m) := by
      intro m hm
      rw [hlen2] at hm
      exact hget2 m hm
    obtain ⟨st3, hst3, hlen3, hget3⟩ := ih (i + 1) st2 hne2 hbuf3
    refine ⟨st3, ?_, by rw [hlen3, hlen2], ?_⟩
    · simp only [skipAll]
      rw [hwcb, hst2]
      exact hst3
    · intro m hm
      have := hget3 m (by rw [hlen2]; exact hm)
      rw [this, show i + 1 + rem' = i + (rem' + 1) from by omega]

/-! ### C1: the flushed byte string of the round trip -/

theorem getD_map_range (f : Nat → List Nat) (n i : Nat) (h : i < n) :
    ((List.range n).map f).getD i [] = f i := by
  rw [List.getD_eq_getElem?_getD, List.getElem?_map, List.getElem?_range h]
  rfl

theorem lvlBuf_ne_nil (skip0 skipn : Nat) (docs : List Nat) (m k : Nat)
    (hk : 1 ≤ k) : lvlBuf skip0 skipn docs m k ≠ [] := by
  intro h
  have h1 := lvlBuf_len_ge skip0 skipn docs m k
  rw [h] at h1
  simp at h1
  omega

theorem dropWhile_all_neg : ∀ (l : List (List Nat)),
    (∀ b ∈ l, b ≠ []) → l.dropWhile (fun x => x.length = 0) = l := by
  intro l hl
  cases l with
  | nil => rfl
  | cons b t =>
    rw [List.dropWhile_cons]
    rw [if_neg]
    simp only [decide_eq_true_eq, List.length_eq_zero]
    exact hl b (by simp)

theorem entCount_pos (skip0 skipn : Nat) (docs : List Nat) (m : Nat)
    (h0 : 1 ≤ skip0) (hn : 2 ≤ skipn)
    (hcnt : skip0 < docs.length)
    (hm : m < max_levels skip0 skipn docs.length) :
    1 ≤ entCount skip0 skipn docs m := by
  have hle := max_levels_step_le skip0 skipn docs.length h0 hn hcnt m hm
  have hp : 1 ≤ stepOf skip0 skipn m := stepOf_pos skip0 skipn m h0 (by omega)
  exact (Nat.one_le_div_iff (by omega)).mpr hle

theorem writer_flush_out (skip0 skipn : Nat) (docs : List Nat)
    (h0 : 1 ≤ skip0) (hn : 2 ≤ skipn) (hcnt : skip0 < docs.length) :
    writeSkipList skip0 skipn docs
      = some (writeVNat (max_levels skip0 skipn docs.length)
          ++ framesOf (((List.range (max_levels skip0 skipn docs.length)).map
              (fun m => lvlBuf skip0 skipn docs m
                (entCount skip0 skipn docs m))).reverse)) ∧
    ∀ b ∈ ((List.range (max_levels skip0 skipn docs.length)).map
        (fun m => lvlBuf skip0 skipn docs m (entCount skip0 skipn docs m))).reverse,
      b ≠ [] := by
  set L := max_levels skip0 skipn docs.length with hLdef
  set bsL := (List.range L).map
    (fun m => lvlBuf skip0 skipn docs m (entCount skip0 skipn docs m)) with hbsdef
  have hL : 1 ≤ L := max_levels_pos skip0 skipn docs.length hcnt
  have hbslen : bsL.length = L := by
    rw [hbsdef, List.length_map, List.length_range]
  have hbsget : ∀ m, m < L → bsL.getD m []
      = lvlBuf skip0 skipn docs m (entCount skip0 skipn docs m) := by
    intro m hm
    rw [hbsdef]
    exact getD_map_range _ L m hm
  have hbs_ne : ∀ b ∈ bsL, b ≠ [] := by
    intro b hb
    rw [hbsdef] at hb
    rcases List.mem_map.mp hb with ⟨m, hm, hfm⟩
    rw [List.mem_range] at hm
    rw [← hfm]
    exact lvlBuf_ne_nil skip0 skipn docs m _
      (entCount_pos skip0 skipn docs m h0 hn hcnt hm)
  have hbs_ne_rev : ∀ b ∈ bsL.reverse, b ≠ [] := by
    intro b hb
    exact hbs_ne b (List.mem_reverse.mp hb)
  have hprep : skip_writer.prepare skip0 skipn L docs.length
      = List.replicate L [] := by
    unfold skip_writer.prepare
    rw [show min (max 1 L) (max_levels skip0 skipn docs.length) = L from by
      rw [← hLdef]; omega]
  have hinv0 : ∀ m, m < (List.replicate L ([] : List Nat)).length →
      (List.replicate L ([] : List Nat)).getD m []
        = lvlBuf skip0 skipn docs m (0 / stepOf skip0 skipn m) := by
    intro m hm
    rw [Nat.zero_div, lvlBuf_zero, List.getD_eq_getElem?_getD,
      List.getElem?_replicate]
    split <;> rfl
  obtain ⟨st2, hrun, hlen2, hget2⟩ := skipAll_chr skip0 skipn docs h0
    (by omega) docs.length 0 (List.replicate L [])
    (by
      intro h
      have : (List.replicate L ([] : List Nat)).length = 0 := by rw [h]; rfl
      rw [List.length_replicate] at this
      omega)
    hinv0
  rw [List.length_replicate] at hlen2 hget2
  have hst2 : st2 = bsL := by
    refine List.ext_getElem (by rw [hlen2, hbslen]) ?_
    intro i h1 h2
    have hiL : i < L := by rw [hlen2] at h1; exact h1
    have ha := hget2 i hiL
    have hb := hbsget i hiL
    rw [List.getD_eq_getElem?_getD, List.getElem?_eq_getElem h1] at ha
    rw [List.getD_eq_getElem?_getD, List.getElem?_eq_getElem h2] at hb
    simp only [Option.getD_some] at ha hb
    rw [ha, hb]
    rw [show (0 + docs.length) = docs.length from by omega]
    rfl
  have hdc : DownwardClosed st2 := by
    intro i j hij hj hne
    rw [hst2] at hne ⊢
    rw [hst2, hbslen] at hj
    rw [hbsget i (by omega)]
    exact lvlBuf_ne_nil skip0 skipn docs i _
      (entCount_pos skip0 skipn docs i h0 hn hcnt (by omega))
  obtain ⟨hflush, _⟩ := flush_of_dc st2 hdc
  have hdrop : st2.reverse.dropWhile (fun l => l.length = 0) = st2.reverse := by
    refine dropWhile_all_neg st2.reverse ?_
    intro b hb
    rw [hst2] at hb
    exact hbs_ne_rev b hb
  rw [hdrop] at hflush
  have hout : writeSkipList skip0 skipn docs
      = some (writeVNat st2.reverse.length ++ framesOf st2.reverse) := by
    unfold writeSkipList
    rw [← hLdef, hprep]
    rw [show (1 : Nat) = 0 + 1 from rfl, hrun]
    exact hflush
  rw [hst2] at hout
  have hrevlen : bsL.reverse.length = L := by
    rw [List.length_reverse, hbslen]
  rw [hrevlen] at hout
  exact ⟨hout, hbs_ne_rev⟩

/-! ### C1: single skip-entry reads on a boundary state -/

theorem drop_at_boundary (data rest P t : List Nat) (lb : Nat)
    (hw : data.drop lb = (P ++ t) ++ rest) :
    data.drop (lb + P.length) = t ++ rest := by
  have h1 : data.drop (lb + P.length) = (data.drop lb).drop P.length := by
    rw [List.drop_drop]
  rw [h1, hw, List.append_assoc, List.drop_left]

theorem readCallback_at (data : List Nat) (idx : Nat) (lv : RLevel)
    (D : Nat) (C : List Nat)
    (hlt : lv.pos < lv.lend)
    (hbytes : data.drop lv.pos = writeVNat D ++ C) :
    skip_reader.readCallback data idx lv
      = some (D % 4294967296, lv.pos + vlen D) := by
  unfold skip_reader.readCallback
  rw [if_neg (by omega)]
  rw [readV_spec data lv.pos D C hbytes]

theorem read_skip_no_child (data : List Nat) (idx : Nat) (lv : RLevel)
    (D p1 : Nat)
    (hcb : skip_reader.readCallback data idx lv = some (D, p1))
    (hcond : D = NO_MORE_DOCS ∨ lv.child = UNDEFINED) :
    skip_reader.read_skip data idx lv
      = some { lv with
               pos := p1,
               doc := D,
               skipped := lv.skipped + lv.step } := by
  unfold skip_reader.read_skip
  rw [hcb]
  simp only []
  rw [if_neg (by tauto)]

theorem read_skip_with_child (data : List Nat) (idx : Nat) (lv : RLevel)
    (D p1 C p2 : Nat)
    (hcb : skip_reader.readCallback data idx lv = some (D, p1))
    (hne : D ≠ NO_MORE_DOCS) (hch : lv.child ≠ UNDEFINED)
    (hrv : readV data p1 = some (C, p2)) :
    skip_reader.read_skip data idx lv
      = some { lv with
               pos := p2,
               child := C,
               doc := D,
               skipped := lv.skipped + lv.step } := by
  unfold skip_reader.read_skip
  rw [hcb]
  simp only []
  rw [if_pos ⟨hne, hch⟩, hrv]

theorem read_skip_bLv (skip0 skipn : Nat) (docs data rest : List Nat)
    (lb m j idx d : Nat)
    (h0 : 1 ≤ skip0) (hn : 1 ≤ skipn)
    (hd : ∀ x ∈ docs, x < NO_MORE_DOCS) (hN : docs.length < 2 ^ 32)
    (hw : data.drop lb
      = lvlBuf skip0 skipn docs m (entCount skip0 skipn docs m) ++ rest)
    (hj : j < entCount skip0 skipn docs m) :
    skip_reader.read_skip data idx
        { bLv skip0 skipn docs lb m j with doc := d }
      = some (bLv skip0 skipn docs lb m (j + 1)) := by
  obtain ⟨t, ht⟩ := lvlBuf_decomp skip0 skipn docs m j _ hj
  have hlt := lvlBuf_len_lt skip0 skipn docs m j _ hj
  have hdropj : data.drop (lb + (lvlBuf skip0 skipn docs m j).length)
      = (levelEntry skip0 skipn docs m (j + 1) ++ t) ++ rest :=
    drop_at_boundary data rest _ _ lb (by rw [hw, ht])
  have h32 : NO_MORE_DOCS < 4294967296 := by norm_num [NO_MORE_DOCS]
  cases m with
  | zero =>
    have hbytes : data.drop (lb + (lvlBuf skip0 skipn docs 0 j).length)
        = writeVNat (dAt docs ((j + 1) * skip0)) ++ (t ++ rest) := by
      rw [hdropj, levelEntry_zero_eq, List.append_assoc]
    have hD := dAt_lt docs hd ((j + 1) * skip0)
    have hcb := readCallback_at data idx
      { bLv skip0 skipn docs lb 0 j with doc := d }
      (dAt docs ((j + 1) * skip0)) (t ++ rest)
      (by simp only [bLv]; omega)
      (by simp only [bLv]; exact hbytes)
    rw [Nat.mod_eq_of_lt (by omega)] at hcb
    rw [read_skip_no_child data idx _ _ _ hcb (Or.inr (by simp [bLv]))]
    refine congrArg some (rlevel_eq ?_ rfl rfl rfl rfl ?_ ?_)
    · show lb + (lvlBuf skip0 skipn docs 0 j).length
          + vlen (dAt docs ((j + 1) * skip0))
        = lb + (lvlBuf skip0 skipn docs 0 (j + 1)).length
      rw [lvlBuf_succ, levelEntry_zero_eq, List.length_append]
      unfold vlen
      omega
    · show j * stepOf skip0 skipn 0 + stepOf skip0 skipn 0
        = (j + 1) * stepOf skip0 skipn 0
      rw [Nat.succ_mul]
    · show dAt docs ((j + 1) * skip0) = dAt docs ((j + 1) * stepOf skip0 skipn 0)
      rw [stepOf_zero]
  | succ m' =>
    have hent := levelEntry_pos skip0 skipn docs m' (j + 1) (by omega) hn
    have hbytes : data.drop (lb + (lvlBuf skip0 skipn docs (m' + 1) j).length)
        = writeVNat (dAt docs ((j + 1) * stepOf skip0 skipn (m' + 1)))
          ++ (writeVNat (resumeOff skip0 skipn docs m' ((j + 1) * skipn))
            ++ (t ++ rest)) := by
      rw [hdropj, hent]
      simp [List.append_assoc]
    have hD := dAt_lt docs hd ((j + 1) * stepOf skip0 skipn (m' + 1))
    have hcb := readCallback_at data idx
      { bLv skip0 skipn docs lb (m' + 1) j with doc := d }
      (dAt docs ((j + 1) * stepOf skip0 skipn (m' + 1)))
      (writeVNat (resumeOff skip0 skipn docs m' ((j + 1) * skipn)) ++ (t ++ rest))
      (by simp only [bLv]; omega)
      (by simp only [bLv]; exact hbytes)
    rw [Nat.mod_eq_of_lt (by omega)] at hcb
    have hne : dAt docs ((j + 1) * stepOf skip0 skipn (m' + 1))
        ≠ NO_MORE_DOCS := by omega
    have hch : ({ bLv skip0 skipn docs lb (m' + 1) j with doc := d } : RLevel).child
        ≠ UNDEFINED := by
      simp only [bLv]
      rw [if_neg (by omega)]
      simp only [Nat.add_sub_cancel]
      refine resumeOff_ne_undefined skip0 skipn docs h0 hn hd hN m' (j * skipn) ?_
      have harr : j * skipn * stepOf skip0 skipn m'
          = j * stepOf skip0 skipn (m' + 1) := by
        rw [stepOf_succ]; ring
      rw [harr]
      exact entCount_mul_le skip0 skipn docs (m' + 1) j h0 hn (by omega)
    have hbytes2 : data.drop
        (lb + (lvlBuf skip0 skipn docs (m' + 1) j).length
          + (writeVNat (dAt docs ((j + 1) * stepOf skip0 skipn (m' + 1)))).length)
        = writeVNat (resumeOff skip0 skipn docs m' ((j + 1) * skipn))
          ++ (t ++ rest) :=
      drop_at_boundary data (t ++ rest) _ _ _ (by rw [hbytes, ← List.append_assoc])
    have hrv2 : readV data
        (lb + (lvlBuf skip0 skipn docs (m' + 1) j).length
          + vlen (dAt docs ((j + 1) * stepOf skip0 skipn (m' + 1))))
        = some (resumeOff skip0 skipn docs m' ((j + 1) * skipn),
            lb + (lvlBuf skip0 skipn docs (m' + 1) j).length
              + vlen (dAt docs ((j + 1) * stepOf skip0 skipn (m' + 1)))
              + vlen (resumeOff skip0 skipn docs m' ((j + 1) * skipn))) :=
      readV_spec data _ _ _ hbytes2
    rw [read_skip_with_child data idx _ _ _ _ _ hcb hne hch hrv2]
    refine congrArg some (rlevel_eq ?_ rfl rfl ?_ rfl ?_ rfl)
    · show lb + (lvlBuf skip0 skipn docs (m' + 1) j).length
          + vlen (dAt docs ((j + 1) * stepOf skip0 skipn (m' + 1)))
          + vlen (resumeOff skip0 skipn docs m' ((j + 1) * skipn))
        = lb + (lvlBuf skip0 skipn docs (m' + 1) (j + 1)).length
      rw [lvlBuf_succ, List.length_append, hent, List.length_append]
      unfold vlen
      omega
    · show resumeOff skip0 skipn docs m' ((j + 1) * skipn)
        = (bLv skip0 skipn docs lb (m' + 1) (j + 1)).child
      simp only [bLv]
      rw [if_neg (by omega)]
      simp only [Nat.add_sub_cancel]
    · show j * stepOf skip0 skipn (m' + 1) + stepOf skip0 skipn (m' + 1)
        = (j + 1) * stepOf skip0 skipn (m' + 1)
      rw [Nat.succ_mul]

theorem read_skip_bLv_eof (skip0 skipn : Nat) (docs data : List Nat)
    (lb m idx d : Nat) :
    skip_reader.read_skip data idx
        { bLv skip0 skipn docs lb m (entCount skip0 skipn docs m) with
          doc := d }
      = some { bLv skip0 skipn docs lb m (entCount skip0 skipn docs m) with
               doc := NO_MORE_DOCS,
               skipped := (entCount skip0 skipn docs m + 1)
                 * stepOf skip0 skipn m } := by
  have hcb : skip_reader.readCallback data idx
      { bLv skip0 skipn docs lb m (entCount skip0 skipn docs m) with
        doc := d }
      = some (NO_MORE_DOCS,
          lb + (lvlBuf skip0 skipn docs m (entCount skip0 skipn docs m)).length) := by
    unfold skip_reader.readCallback
    rw [if_pos (by simp only [bLv]; omega)]
    rfl
  rw [read_skip_no_child data idx _ _ _ hcb (Or.inl rfl)]
  refine congrArg some (rlevel_eq rfl rfl rfl rfl rfl ?_ rfl)
  show entCount skip0 skipn docs m * stepOf skip0 skipn m
      + stepOf skip0 skipn m
    = (entCount skip0 skipn docs m + 1) * stepOf skip0 skipn m
  rw [Nat.succ_mul]

theorem resumeOff_level0 (skip0 skipn : Nat) (docs : List Nat) (j : Nat) :
    resumeOff skip0 skipn docs 0 j = (lvlBuf skip0 skipn docs 0 j).length := by
  cases j with
  | zero => rw [resumeOff_zero_j, lvlBuf_zero]; rfl
  | succ j' =>
    unfold resumeOff
    rw [if_neg (by omega), lvlBuf_succ, List.length_append,
      levelEntry_zero_eq, stepOf_zero]
    simp only [Nat.add_sub_cancel]
    rfl

theorem seek_skip_fresh (skip0 skipn : Nat) (docs data rest : List Nat)
    (lb m j0 d : Nat)
    (h0 : 1 ≤ skip0) (hn : 1 ≤ skipn)
    (hd : ∀ x ∈ docs, x < NO_MORE_DOCS) (hN : docs.length < 2 ^ 32)
    (hw : data.drop lb
      = lvlBuf skip0 skipn docs m (entCount skip0 skipn docs m) ++ rest)
    (hj0 : j0 ≤ entCount skip0 skipn docs m) :
    skip_reader.seek_skip data { bLv skip0 skipn docs lb m 0 with doc := d }
        (resumeOff skip0 skipn docs m j0) (j0 * stepOf skip0 skipn m)
      = some { bLv skip0 skipn docs lb m j0 with doc := d } := by
  rcases Nat.eq_zero_or_pos j0 with hj00 | hj01
  · subst hj00
    unfold skip_reader.seek_skip
    rw [resumeOff_zero_j]
    rw [if_neg (by simp [bLv, lvlBuf_zero])]
  · have hro1 : 1 ≤ resumeOff skip0 skipn docs m j0 := by
      unfold resumeOff
      rw [if_neg (by omega)]
      have := vlen_pos (dAt docs (j0 * stepOf skip0 skipn m))
      omega
    have hlt : ({ bLv skip0 skipn docs lb m 0 with doc := d } : RLevel).pos
        < ({ bLv skip0 skipn docs lb m 0 with doc := d } : RLevel).lbegin
          + resumeOff skip0 skipn docs m j0 := by
      simp only [bLv, lvlBuf_zero]
      simp
      omega
    cases m with
    | zero =>
      unfold skip_reader.seek_skip
      rw [if_pos hlt]
      rw [if_neg (by simp [bLv])]
      refine congrArg some (rlevel_eq ?_ rfl rfl rfl rfl rfl rfl)
      show lb + resumeOff skip0 skipn docs 0 j0
        = lb + (lvlBuf skip0 skipn docs 0 j0).length
      rw [resumeOff_level0]
    | succ m' =>
      have hch : ({ bLv skip0 skipn docs lb (m' + 1) 0 with doc := d } : RLevel).child
          ≠ UNDEFINED := by
        simp only [bLv]
        rw [if_neg (by omega), Nat.zero_mul, resumeOff_zero_j]
        norm_num [UNDEFINED]
      have hro : resumeOff skip0 skipn docs (m' + 1) j0
          = (lvlBuf skip0 skipn docs (m' + 1) (j0 - 1)).length
            + vlen (dAt docs (j0 * stepOf skip0 skipn (m' + 1))) := by
        unfold resumeOff
        rw [if_neg (by omega)]
      obtain ⟨t, ht⟩ := lvlBuf_decomp skip0 skipn docs (m' + 1) (j0 - 1)
        (entCount skip0 skipn docs (m' + 1)) (by omega)
      rw [show j0 - 1 + 1 = j0 from by omega] at ht
      have hent := levelEntry_pos skip0 skipn docs m' j0 (by omega) hn
      have hdropa : data.drop (lb + (lvlBuf skip0 skipn docs (m' + 1) (j0 - 1)).length)
          = (writeVNat (dAt docs (j0 * stepOf skip0 skipn (m' + 1)))
              ++ writeVNat (resumeOff skip0 skipn docs m' (j0 * skipn))) ++ (t ++ rest) := by
        have := drop_at_boundary data rest
          (lvlBuf skip0 skipn docs (m' + 1) (j0 - 1))
          (levelEntry skip0 skipn docs (m' + 1) j0 ++ t) lb
          (by rw [hw, ht])
        rw [this, hent, List.append_assoc]
      have hbytes2 : data.drop
          (lb + (lvlBuf skip0 skipn docs (m' + 1) (j0 - 1)).length
            + (writeVNat (dAt docs (j0 * stepOf skip0 skipn (m' + 1)))).length)
          = writeVNat (resumeOff skip0 skipn docs m' (j0 * skipn)) ++ (t ++ rest) :=
        drop_at_boundary data (t ++ rest) _ _ _
          (by rw [hdropa, List.append_assoc, ← List.append_assoc])
      have hrv : readV data
          (({ bLv skip0 skipn docs lb (m' + 1) 0 with doc := d } : RLevel).lbegin
            + resumeOff skip0 skipn docs (m' + 1) j0)
          = some (resumeOff skip0 skipn docs m' (j0 * skipn),
              lb + (lvlBuf skip0 skipn docs (m' + 1) (j0 - 1)).length
                + vlen (dAt docs (j0 * stepOf skip0 skipn (m' + 1)))
                + vlen (resumeOff skip0 skipn docs m' (j0 * skipn))) := by
        rw [show ({ bLv skip0 skipn docs lb (m' + 1) 0 with doc := d } : RLevel).lbegin
            + resumeOff skip0 skipn docs (m' + 1) j0
          = lb + (lvlBuf skip0 skipn docs (m' + 1) (j0 - 1)).length
            + vlen (dAt docs (j0 * stepOf skip0 skipn (m' + 1))) from by
          rw [show ({ bLv skip0 skipn docs lb (m' + 1) 0 with doc := d } : RLevel).lbegin
            = lb from rfl, hro]
          omega]
        exact readV_spec data _ _ _ hbytes2
      unfold skip_reader.seek_skip
      rw [if_pos hlt, if_pos hch, hrv]
      refine congrArg some (rlevel_eq ?_ rfl rfl ?_ rfl rfl rfl)
      · show lb + (lvlBuf skip0 skipn docs (m' + 1) (j0 - 1)).length
            + vlen (dAt docs (j0 * stepOf skip0 skipn (m' + 1)))
            + vlen (resumeOff skip0 skipn docs m' (j0 * skipn))
          = lb + (lvlBuf skip0 skipn docs (m' + 1) j0).length
        rw [show j0 = j0 - 1 + 1 from by omega, lvlBuf_succ,
          List.length_append, show j0 - 1 + 1 = j0 from by omega, hent,
          List.length_append]
        unfold vlen
        omega
      · show resumeOff skip0 skipn docs m' (j0 * skipn)
          = (bLv skip0 skipn docs lb (m' + 1) j0).child
        simp only [bLv]
        rw [if_neg (by omega)]
        simp only [Nat.add_sub_cancel]

theorem advanceLoop_run (skip0 skipn : Nat) (docs data rest : List Nat)
    (lb m target idx : Nat)
    (h0 : 1 ≤ skip0) (hn : 1 ≤ skipn)
    (hd : ∀ x ∈ docs, x < NO_MORE_DOCS) (hN : docs.length < 2 ^ 32)
    (hw : data.drop lb
      = lvlBuf skip0 skipn docs m (entCount skip0 skipn docs m) ++ rest)
    (htN : target < NO_MORE_DOCS) :
    ∀ (fuel j cv : Nat), 1 ≤ j → j ≤ entCount skip0 skipn docs m →
      entCount skip0 skipn docs m + 2 - j ≤ fuel →
      cv = (bLv skip0 skipn docs lb m (j - 1)).child →
      ∃ r cv2 lv3,
        skip_reader.advanceLoop data target idx fuel cv
            (bLv skip0 skipn docs lb m j) = some (lv3, cv2) ∧
        j ≤ r ∧ r ≤ entCount skip0 skipn docs m + 1 ∧
        lv3.skipped = r * stepOf skip0 skipn m ∧
        lv3.step = stepOf skip0 skipn m ∧
        cv2 = (bLv skip0 skipn docs lb m (r - 1)).child ∧
        (∀ u, j ≤ u → u < r → dAt docs (u * stepOf skip0 skipn m) < target) := by
  intro fuel
  induction fuel with
  | zero =>
    intro j cv h1 h2 hf _
    omega
  | succ f ihf =>
    intro j cv h1 h2 hf hcv
    by_cases hdoc : (bLv skip0 skipn docs lb m j).doc < target
    · rcases Nat.lt_or_ge j (entCount skip0 skipn docs m) with hjE | hjE
      · have hread : skip_reader.read_skip data idx
            (bLv skip0 skipn docs lb m j)
            = some (bLv skip0 skipn docs lb m (j + 1)) :=
          read_skip_bLv skip0 skipn docs data rest lb m j idx
            ((bLv skip0 skipn docs lb m j).doc) h0 hn hd hN hw hjE
        obtain ⟨r, cv2, lv3, hrun, hge, hle, hsk, hst, hcv2, hpass⟩ :=
          ihf (j + 1) ((bLv skip0 skipn docs lb m j).child) (by omega)
            (by omega) (by omega) (by rw [Nat.add_sub_cancel])
        refine ⟨r, cv2, lv3, ?_, by omega, hle, hsk, hst, hcv2, ?_⟩
        · simp only [skip_reader.advanceLoop]
          rw [if_pos hdoc, hread]
          exact hrun
        · intro u hu1 hu2
          rcases Nat.eq_or_lt_of_le hu1 with he | hlt2
          · rw [he] at hdoc
            exact hdoc
          · exact hpass u (by omega) hu2
      · have hjeq : j = entCount skip0 skipn docs m := by omega
        subst hjeq
        have hread : skip_reader.read_skip data idx
            (bLv skip0 skipn docs lb m (entCount skip0 skipn docs m))
            = some { bLv skip0 skipn docs lb m (entCount skip0 skipn docs m) with
                     doc := NO_MORE_DOCS,
                     skipped := (entCount skip0 skipn docs m + 1)
                       * stepOf skip0 skipn m } :=
          read_skip_bLv_eof skip0 skipn docs data lb m idx
            ((bLv skip0 skipn docs lb m (entCount skip0 skipn docs m)).doc)
        refine ⟨entCount skip0 skipn docs m + 1,
          (bLv skip0 skipn docs lb m (entCount skip0 skipn docs m)).child,
          { bLv skip0 skipn docs lb m (entCount skip0 skipn docs m) with
            doc := NO_MORE_DOCS,
            skipped := (entCount skip0 skipn docs m + 1) * stepOf skip0 skipn m },
          ?_, by omega, by omega, rfl, rfl, by rw [Nat.add_sub_cancel], ?_⟩
        · simp only [skip_reader.advanceLoop]
          rw [if_pos hdoc, hread]
          show skip_reader.advanceLoop data target idx f
              (bLv skip0 skipn docs lb m (entCount skip0 skipn docs m)).child
              { bLv skip0 skipn docs lb m (entCount skip0 skipn docs m) with
                doc := NO_MORE_DOCS,
                skipped := (entCount skip0 skipn docs m + 1)
                  * stepOf skip0 skipn m }
            = _
          cases f with
          | zero => omega
          | succ f2 =>
            simp only [skip_reader.advanceLoop]
            rw [if_neg (by show ¬ (NO_MORE_DOCS < target); omega)]
        · intro u hu1 hu2
          have hue : u = entCount skip0 skipn docs m := by omega
          rw [← hue] at hdoc
          exact hdoc
    · refine ⟨j, cv, bLv skip0 skipn docs lb m j, ?_, le_refl _, by omega,
        rfl, rfl, hcv, ?_⟩
      · simp only [skip_reader.advanceLoop]
        rw [if_neg hdoc]
      · intro u hu1 hu2
        omega

theorem processLevel_run (skip0 skipn : Nat) (docs data rest : List Nat)
    (lb m j0 target idx : Nat)
    (h0 : 1 ≤ skip0) (hn : 1 ≤ skipn)
    (hd : ∀ x ∈ docs, x < NO_MORE_DOCS) (hN : docs.length < 2 ^ 32)
    (hw : data.drop lb
      = lvlBuf skip0 skipn docs m (entCount skip0 skipn docs m) ++ rest)
    (htN : target < NO_MORE_DOCS) (ht1 : 1 ≤ target)
    (hj0 : j0 ≤ entCount skip0 skipn docs m)
    (hsafe : j0 = 0 ∨ dAt docs (j0 * stepOf skip0 skipn m) < target) :
    ∃ r lv3 cv2,
      skip_reader.processLevel data target idx
          (resumeOff skip0 skipn docs m j0) (j0 * stepOf skip0 skipn m)
          { bLv skip0 skipn docs lb m 0 with doc := INVALID_DOC }
        = some (lv3, cv2, (r - 1) * stepOf skip0 skipn m) ∧
      j0 + 1 ≤ r ∧ r ≤ entCount skip0 skipn docs m + 1 ∧
      lv3.skipped = r * stepOf skip0 skipn m ∧
      cv2 = (bLv skip0 skipn docs lb m (r - 1)).child ∧
      (r - 1 = 0 ∨ dAt docs ((r - 1) * stepOf skip0 skipn m) < target) := by
  have hdoc0 : ({ bLv skip0 skipn docs lb m 0 with doc := INVALID_DOC } : RLevel).doc
      < target := by
    show INVALID_DOC < target
    unfold INVALID_DOC
    omega
  have hss := seek_skip_fresh skip0 skipn docs data rest lb m j0 INVALID_DOC
    h0 hn hd hN hw hj0
  have hEdata : entCount skip0 skipn docs m ≤ data.length := by
    have h1 := lvlBuf_len_ge skip0 skipn docs m (entCount skip0 skipn docs m)
    have h2 : (data.drop lb).length
        = (lvlBuf skip0 skipn docs m (entCount skip0 skipn docs m)).length
          + rest.length := by
      rw [hw, List.length_append]
    have h3 : (data.drop lb).length = data.length - lb := by
      rw [List.length_drop]
    omega
  have hsub : ∀ r : Nat, 1 ≤ r →
      r * stepOf skip0 skipn m - stepOf skip0 skipn m
        = (r - 1) * stepOf skip0 skipn m := by
    intro r hr
    rw [Nat.sub_mul, Nat.one_mul]
  rcases Nat.lt_or_ge j0 (entCount skip0 skipn docs m) with hjE | hjE
  · have hread : skip_reader.read_skip data idx
        ({ bLv skip0 skipn docs lb m j0 with doc := INVALID_DOC } : RLevel)
        = some (bLv skip0 skipn docs lb m (j0 + 1)) :=
      read_skip_bLv skip0 skipn docs data rest lb m j0 idx INVALID_DOC
        h0 hn hd hN hw hjE
    obtain ⟨r, cv2, lv3, hrun, hge, hle, hsk, hst, hcv2, hpass⟩ :=
      advanceLoop_run skip0 skipn docs data rest lb m target idx h0 hn hd hN
        hw htN (data.length + 2) (j0 + 1)
        ((bLv skip0 skipn docs lb m j0).child)
        (by omega) (by omega) (by omega)
        (by rw [Nat.add_sub_cancel])
    refine ⟨r, lv3, cv2, ?_, by omega, hle, hsk, hcv2, ?_⟩
    · unfold skip_reader.processLevel
      rw [if_pos hdoc0, hss]
      simp only []
      simp only [hread]
      simp only [hrun]
      simp only [hsk, hst]
      rw [hsub r (by omega)]
    · rcases Nat.eq_or_lt_of_le (show j0 ≤ r - 1 from by omega) with he | hlt
      · rcases hsafe with h | h
        · left; omega
        · right; rw [← he]; exact h
      · right
        exact hpass (r - 1) (by omega) (by omega)
  · have hjeq : j0 = entCount skip0 skipn docs m := by omega
    have hread := read_skip_bLv_eof skip0 skipn docs data lb m idx INVALID_DOC
    rw [← hjeq] at hread
    refine ⟨j0 + 1,
      { bLv skip0 skipn docs lb m j0 with
        doc := NO_MORE_DOCS,
        skipped := (j0 + 1) * stepOf skip0 skipn m },
      (bLv skip0 skipn docs lb m j0).child,
      ?_, by omega, by omega, rfl, by rw [Nat.add_sub_cancel], ?_⟩
    · unfold skip_reader.processLevel
      rw [if_pos hdoc0, hss]
      simp only []
      simp only [hread]
      rw [show data.length + 2 = data.length + 1 + 1 from rfl]
      simp only [skip_reader.advanceLoop]
      rw [if_neg (by show ¬ (NO_MORE_DOCS < target); omega)]
      simp only []
      rw [show (bLv skip0 skipn docs lb m j0).step = stepOf skip0 skipn m
        from rfl]
      rw [hsub (j0 + 1) (by omega)]
    · rw [Nat.add_sub_cancel]
      exact hsafe

theorem getLastD_cons_ne (l : List RLevel) (a b : RLevel) (h : l ≠ []) :
    l.getLastD a = l.getLastD b := by
  cases l with
  | nil => exact absurd rfl h
  | cons x t => rw [List.getLastD_cons, List.getLastD_cons]

theorem fresh_to_bLv (skip0 skipn : Nat) (docs data : List Nat) (m : Nat)
    (lv : RLevel) (finest : Bool)
    (hf : FreshLevelOn data
      (lvlBuf skip0 skipn docs m (entCount skip0 skipn docs m))
      (stepOf skip0 skipn m) finest lv)
    (hmf : finest = true → m = 0) (hmf2 : finest = false → 1 ≤ m) :
    lv = { bLv skip0 skipn docs lv.lbegin m 0 with doc := INVALID_DOC }
      ∧ ∃ rest2, data.drop lv.lbegin
          = lvlBuf skip0 skipn docs m (entCount skip0 skipn docs m)
            ++ rest2 := by
  obtain ⟨h1, h2, h3, h4, h5, h6, rest2, h7⟩ := hf
  refine ⟨rlevel_eq ?_ rfl ?_ ?_ ?_ ?_ ?_, rest2, h7⟩
  · show lv.pos = lv.lbegin + (lvlBuf skip0 skipn docs m 0).length
    rw [lvlBuf_zero]
    simpa using h1
  · exact h2
  · show lv.child = (if m = 0 then UNDEFINED
      else resumeOff skip0 skipn docs (m - 1) (0 * skipn))
    cases finest with
    | true =>
      have hm0 := hmf rfl
      subst hm0
      rw [if_pos rfl]
      simpa using h6
    | false =>
      have hm1 := hmf2 rfl
      rw [if_neg (by omega), Nat.zero_mul, resumeOff_zero_j]
      simpa using h6
  · exact h3
  · show lv.skipped = 0 * stepOf skip0 skipn m
    rw [Nat.zero_mul]
    exact h4
  · exact h5

theorem processLevels_run (skip0 skipn target : Nat) (docs data : List Nat)
    (h0 : 1 ≤ skip0) (hn : 1 ≤ skipn)
    (hd : ∀ x ∈ docs, x < NO_MORE_DOCS) (hN : docs.length < 2 ^ 32)
    (htN : target < NO_MORE_DOCS) (ht1 : 1 ≤ target) :
    ∀ (ls : List RLevel) (j : Nat), ls ≠ [] →
      (∀ idx, idx + 1 < ls.length →
        FreshLevelOn data
          (lvlBuf skip0 skipn docs (ls.length - 1 - idx)
            (entCount skip0 skipn docs (ls.length - 1 - idx)))
          (stepOf skip0 skipn (ls.length - 1 - idx)) false
          (ls.getD idx default)) →
      FreshLevelOn data
        (lvlBuf skip0 skipn docs 0 (entCount skip0 skipn docs 0))
        (stepOf skip0 skipn 0) true (ls.getD (ls.length - 1) default) →
      j ≤ entCount skip0 skipn docs (ls.length - 1) →
      (j = 0 ∨ dAt docs (j * stepOf skip0 skipn (ls.length - 1)) < target) →
      ∃ suffix cvF svF r0,
        skip_reader.processLevels data target
            (resumeOff skip0 skipn docs (ls.length - 1) j)
            (j * stepOf skip0 skipn (ls.length - 1)) ls
          = some (suffix, cvF, svF) ∧
        suffix ≠ [] ∧ 1 ≤ r0 ∧
        r0 ≤ entCount skip0 skipn docs 0 + 1 ∧
        (suffix.getLastD default).skipped = r0 * stepOf skip0 skipn 0 ∧
        (r0 - 1 = 0 ∨ dAt docs ((r0 - 1) * stepOf skip0 skipn 0) < target) := by
  intro ls
  induction ls with
  | nil => intro j hne; exact absurd rfl hne
  | cons lv rest ih =>
    intro j _hne hcoarse hfin hj hsafe
    cases hrest : rest with
    | nil =>
      subst hrest
      have hfin0 : FreshLevelOn data
          (lvlBuf skip0 skipn docs 0 (entCount skip0 skipn docs 0))
          (stepOf skip0 skipn 0) true lv := by
        have := hfin
        simpa using this
      obtain ⟨hlveq, rest2, hwin⟩ := fresh_to_bLv skip0 skipn docs data 0 lv
        true hfin0 (fun _ => rfl) (fun h => by simp at h)
      have hj0 : j ≤ entCount skip0 skipn docs 0 := by simpa using hj
      have hsafe0 : j = 0 ∨ dAt docs (j * stepOf skip0 skipn 0) < target := by
        simpa using hsafe
      obtain ⟨r, lv3, cv2, hrun, hge, hle, hsk, hcv2, hsafe2⟩ :=
        processLevel_run skip0 skipn docs data rest2 lv.lbegin 0 j target 0
          h0 hn hd hN hwin htN ht1 hj0 hsafe0
      refine ⟨[lv3], cv2, (r - 1) * stepOf skip0 skipn 0, r, ?_, by simp,
        by omega, hle, ?_, hsafe2⟩
      · show skip_reader.processLevels data target
            (resumeOff skip0 skipn docs ([lv].length - 1) j)
            (j * stepOf skip0 skipn ([lv].length - 1)) [lv]
          = some ([lv3], cv2, (r - 1) * stepOf skip0 skipn 0)
        simp only [List.length_singleton, Nat.sub_self]
        simp only [skip_reader.processLevels]
        rw [hlveq]
        rw [show ([] : List RLevel).length = 0 from rfl]
        rw [hrun]
      · show lv3.skipped = r * stepOf skip0 skipn 0
        exact hsk
    | cons l2 t2 =>
      rw [← hrest]
      have hrne : rest ≠ [] := by rw [hrest]; simp
      have hm1 : 1 ≤ rest.length := by
        cases rest with
        | nil => exact absurd rfl hrne
        | cons a b => simp
      have hlen1 : (lv :: rest).length - 1 = rest.length := by simp
      have hcoarse0 : FreshLevelOn data
          (lvlBuf skip0 skipn docs rest.length
            (entCount skip0 skipn docs rest.length))
          (stepOf skip0 skipn rest.length) false lv := by
        have := hcoarse 0 (by simp; omega)
        simpa using this
      obtain ⟨hlveq, rest2, hwin⟩ := fresh_to_bLv skip0 skipn docs data
        rest.length lv false hcoarse0 (fun h => by simp at h) (fun _ => hm1)
      have hj' : j ≤ entCount skip0 skipn docs rest.length := by
        rw [hlen1] at hj
        exact hj
      have hsafe' : j = 0
          ∨ dAt docs (j * stepOf skip0 skipn rest.length) < target := by
        rw [hlen1] at hsafe
        exact hsafe
      obtain ⟨r, lv3, cv2, hrun, hge, hle, hsk, hcv2, hsafe2⟩ :=
        processLevel_run skip0 skipn docs data rest2 lv.lbegin rest.length j
          target rest.length h0 hn hd hN hwin htN ht1 hj' hsafe'
      have hcoarse' : ∀ idx, idx + 1 < rest.length →
          FreshLevelOn data
            (lvlBuf skip0 skipn docs (rest.length - 1 - idx)
              (entCount skip0 skipn docs (rest.length - 1 - idx)))
            (stepOf skip0 skipn (rest.length - 1 - idx)) false
            (rest.getD idx default) := by
        intro idx hidx
        have := hcoarse (idx + 1) (by simp; omega)
        rw [show (lv :: rest).length - 1 - (idx + 1) = rest.length - 1 - idx
          from by simp; omega] at this
        simpa using this
      have hfin' : FreshLevelOn data
          (lvlBuf skip0 skipn docs 0 (entCount skip0 skipn docs 0))
          (stepOf skip0 skipn 0) true (rest.getD (rest.length - 1) default) := by
        have := hfin
        rw [show (lv :: rest).length - 1 = (rest.length - 1) + 1 from by
          simp
          omega] at this
        simpa using this
      have hj2 : (r - 1) * skipn ≤ entCount skip0 skipn docs (rest.length - 1) := by
        have h1 : r - 1 ≤ entCount skip0 skipn docs rest.length := by omega
        have h2 := entCount_skipn_le skip0 skipn docs (rest.length - 1)
        rw [show rest.length - 1 + 1 = rest.length from by omega] at h2
        exact le_trans (Nat.mul_le_mul_right skipn h1) h2
      have hstepm : stepOf skip0 skipn rest.length
          = stepOf skip0 skipn (rest.length - 1) * skipn := by
        rw [← stepOf_succ, show rest.length - 1 + 1 = rest.length from by omega]
      have hsveq : (r - 1) * stepOf skip0 skipn rest.length
          = (r - 1) * skipn * stepOf skip0 skipn (rest.length - 1) := by
        rw [hstepm]
        ring
      have hcveq : cv2 = resumeOff skip0 skipn docs (rest.length - 1)
          ((r - 1) * skipn) := by
        rw [hcv2]
        show (if rest.length = 0 then UNDEFINED
          else resumeOff skip0 skipn docs (rest.length - 1) ((r - 1) * skipn)) = _
        rw [if_neg (by omega)]
      have hsafe3 : (r - 1) * skipn = 0
          ∨ dAt docs ((r - 1) * skipn * stepOf skip0 skipn (rest.length - 1))
            < target := by
        rcases hsafe2 with h | h
        · left
          rw [h, Nat.zero_mul]
        · right
          rw [← hsveq]
          exact h
      obtain ⟨suffix, cvF, svF, r0, hruns, hsne, hr01, hr0le, hlast, hsafeF⟩ :=
        ih ((r - 1) * skipn) hrne hcoarse' hfin' hj2 hsafe3
      refine ⟨lv3 :: suffix, cvF, svF, r0, ?_, by simp, hr01, hr0le, ?_, hsafeF⟩
      · show skip_reader.processLevels data target
            (resumeOff skip0 skipn docs ((lv :: rest).length - 1) j)
            (j * stepOf skip0 skipn ((lv :: rest).length - 1)) (lv :: rest)
          = some (lv3 :: suffix, cvF, svF)
        rw [hlen1]
        simp only [skip_reader.processLevels]
        rw [hlveq, hrun]
        simp only []
        rw [hcveq, hsveq, hruns]
      · rw [List.getLastD_cons, getLastD_cons_ne suffix lv3 default hsne]
        exact hlast

/-! ### C1: the first seek on a freshly prepared reader -/

theorem sortedByDocRev_all_zero : ∀ (l : List RLevel),
    (∀ lv ∈ l, lv.doc = 0) → skip_reader.sortedByDocRev l = true := by
  intro l
  induction l with
  | nil => intro _; rfl
  | cons a t ih =>
    intro h
    cases t with
    | nil => rfl
    | cons b t2 =>
      simp only [skip_reader.sortedByDocRev, Bool.and_eq_true]
      refine ⟨?_, ih (fun lv hlv => h lv (by simp [hlv]))⟩
      rw [h a (by simp), h b (by simp)]
      simp

theorem find_level_fresh (levels : List RLevel) (target : Nat)
    (h : ∀ lv ∈ levels, lv.doc = INVALID_DOC) :
    skip_reader.find_level levels target = some 0 := by
  have hz : ∀ lv ∈ levels.reverse, lv.doc = 0 := by
    intro lv hlv
    have := h lv (List.mem_reverse.mp hlv)
    simpa [INVALID_DOC] using this
  unfold skip_reader.find_level
  rw [if_pos (sortedByDocRev_all_zero _ hz)]
  have hidx : (levels.reverse).findIdx (fun lv => decide (target < lv.doc))
      = levels.reverse.length := by
    rw [List.findIdx_eq_length]
    intro x hx
    rw [hz x hx]
    simp
  rw [hidx]
  simp

theorem processLevels_stay (data : List Nat) (target : Nat) :
    ∀ (ls : List RLevel) (cv sv : Nat), (∀ lv ∈ ls, ¬ lv.doc < target) →
      skip_reader.processLevels data target cv sv ls = some (ls, cv, sv) := by
  intro ls
  induction ls with
  | nil => intro cv sv _; rfl
  | cons lv rest ih =>
    intro cv sv h
    simp only [skip_reader.processLevels]
    have hpl : skip_reader.processLevel data target rest.length cv sv lv
        = some (lv, cv, sv) := by
      unfold skip_reader.processLevel
      rw [if_neg (h lv (by simp))]
    rw [hpl]
    show (match skip_reader.processLevels data target cv sv rest with
      | none => none
      | some (rest2, cv3, sv3) => some (lv :: rest2, cv3, sv3))
      = some (lv :: rest, cv, sv)
    rw [ih cv sv (fun x hx => h x (by simp [hx]))]

theorem getD_in_range (l : List RLevel) (d1 d2 : RLevel) (i : Nat)
    (h : i < l.length) : l.getD i d1 = l.getD i d2 := by
  rw [List.getD_eq_getElem?_getD, List.getD_eq_getElem?_getD,
    List.getElem?_eq_getElem h]
  rfl

theorem getLastD_eq_getD : ∀ (l : List RLevel) (d : RLevel), l ≠ [] →
    l.getLastD d = l.getD (l.length - 1) d := by
  intro l
  induction l with
  | nil => intro d h; exact absurd rfl h
  | cons x t ih =>
    intro d _
    cases ht : t with
    | nil => subst ht; rfl
    | cons y t2 =>
      subst ht
      rw [List.getLastD_cons, ih x (by simp)]
      rw [show (x :: y :: t2).length - 1 = ((y :: t2).length - 1) + 1 from by
        simp]
      rw [List.getD_cons_succ]
      exact getD_in_range (y :: t2) x d ((y :: t2).length - 1) (by simp)

theorem sorted_getD_le (docs : List Nat) (hs : docs.Pairwise (· ≤ ·))
    (i k : Nat) (hik : i ≤ k) (hk : k < docs.length) :
    docs.getD i 0 ≤ docs.getD k 0 := by
  rcases Nat.eq_or_lt_of_le hik with he | hlt
  · rw [he]
  · have hi : i < docs.length := by omega
    rw [List.getD_eq_getElem?_getD, List.getD_eq_getElem?_getD,
      List.getElem?_eq_getElem hi, List.getElem?_eq_getElem hk]
    simp only [Option.getD_some]
    exact List.pairwise_iff_getElem.mp hs i k hi hk hlt

theorem step_div_pow (skip0 skipn L i : Nat) (hn : 1 ≤ skipn)
    (hi : i ≤ L - 1) :
    skip0 * skipn ^ (L - 1) / skipn ^ i = stepOf skip0 skipn (L - 1 - i) := by
  rw [show L - 1 = i + (L - 1 - i) from by omega, Nat.pow_add]
  rw [show skip0 * (skipn ^ i * skipn ^ (L - 1 - i))
      = skipn ^ i * (skip0 * skipn ^ (L - 1 - i)) from by ring]
  rw [Nat.mul_div_cancel_left _ (Nat.pos_pow_of_pos i (by omega))]
  rw [show i + (L - 1 - i) - i = L - 1 - i from by omega]
  rfl

theorem seek_unfold_start0 (r : Reader) (target : Nat) (suffix : List RLevel)
    (cvF svF : Nat)
    (hne : r.levels ≠ [])
    (hfl : skip_reader.find_level r.levels target = some 0)
    (hpl : skip_reader.processLevels r.data target 0 0 r.levels
      = some (suffix, cvF, svF)) :
    skip_reader.seek r target
      = some (if (suffix.getLastD default).skipped = 0 then 0
              else (suffix.getLastD default).skipped - r.skip0,
          { r with levels := suffix }) := by
  unfold skip_reader.seek
  cases hlv : r.levels with
  | nil => exact absurd hlv hne
  | cons a t =>
    rw [hlv] at hfl hpl
    simp only []
    rw [hfl]
    simp only []
    rw [List.drop_zero, hpl]
    simp only []
    rw [List.take_zero, List.nil_append]

/-- C1, amended: round trip.  For every non-decreasing document id
sequence (all ids below the end-of-list sentinel, fewer than `2^32`
entries, `1 ≤ skip_0 < count`, `2 ≤ skip_n`) written through
`skip_writer::skip` with running counts `1 .. count` and flushed, a
`skip_reader` prepared with the same parameters accepts the bytes, and
`seek(target)` for every `target` in the sequence returns a skip count
`s ≤ count` such that every entry with index in `[0, s)` is strictly
below `target` — the returned count never overshoots.  (The concrete
value the spec claims for `seek(10)` is corrected separately: it is 10,
not 8.) -/
theorem c1_round_trip (skip0 skipn target : Nat) (docs : List Nat)
    (h0 : 1 ≤ skip0) (hn : 2 ≤ skipn)
    (hcnt : skip0 < docs.length) (hN : docs.length < 2 ^ 32)
    (hsort : docs.Pairwise (· ≤ ·))
    (hd : ∀ d ∈ docs, d < NO_MORE_DOCS)
    (ht : target ∈ docs) :
    ∃ out r s r2,
      writeSkipList skip0 skipn docs = some out ∧
      skip_reader.prepare skip0 skipn out = .ok r ∧
      skip_reader.seek r target = some (s, r2) ∧
      s ≤ docs.length ∧
      ∀ i, i < s → docs.getD i 0 < target := by
  obtain ⟨hout, hnerev⟩ := writer_flush_out skip0 skipn docs h0 hn hcnt
  have hL1 : 1 ≤ max_levels skip0 skipn docs.length :=
    max_levels_pos _ _ _ hcnt
  set L := max_levels skip0 skipn docs.length with hLdef
  set bsR := ((List.range L).map
    (fun m => lvlBuf skip0 skipn docs m (entCount skip0 skipn docs m))).reverse
    with hbsRdef
  have hlenR : bsR.length = L := by
    rw [hbsRdef]
    simp
  obtain ⟨r, hprep, hdata, hsk0, hskn, hlvlen, hfreshC, hfreshF⟩ :=
    prepare_framed skip0 skipn bsR hnerev
  rw [hlenR] at hprep hlvlen hfreshC hfreshF
  have hgetR : ∀ i, i < L → bsR.getD i []
      = lvlBuf skip0 skipn docs (L - 1 - i)
          (entCount skip0 skipn docs (L - 1 - i)) := by
    intro i hi
    rw [hbsRdef, getD_reverse _ i (by simp; exact hi)]
    rw [show ((List.range L).map (fun m => lvlBuf skip0 skipn docs m
        (entCount skip0 skipn docs m))).length - 1 - i = L - 1 - i from by simp]
    exact getD_map_range _ L (L - 1 - i) (by omega)
  have hC : ∀ idx, idx + 1 < r.levels.length →
      FreshLevelOn r.data
        (lvlBuf skip0 skipn docs (r.levels.length - 1 - idx)
          (entCount skip0 skipn docs (r.levels.length - 1 - idx)))
        (stepOf skip0 skipn (r.levels.length - 1 - idx)) false
        (r.levels.getD idx default) := by
    intro idx hidx
    rw [hlvlen] at hidx ⊢
    have := hfreshC idx hidx
    rw [hgetR idx (by omega)] at this
    rw [step_div_pow skip0 skipn L idx (by omega) (by omega)] at this
    exact this
  have hF : FreshLevelOn r.data
      (lvlBuf skip0 skipn docs 0 (entCount skip0 skipn docs 0))
      (stepOf skip0 skipn 0) true
      (r.levels.getD (r.levels.length - 1) default) := by
    rw [hlvlen]
    have hne2 : bsR ≠ [] := by
      intro hh
      rw [hh] at hlenR
      simp at hlenR
      omega
    have := hfreshF hne2
    rw [hgetR (L - 1) (by omega)] at this
    rw [show L - 1 - (L - 1) = 0 from by omega] at this
    rw [stepOf_zero]
    exact this
  have hdocs0 : ∀ lv ∈ r.levels, lv.doc = INVALID_DOC := by
    intro lv hlv
    obtain ⟨idx, hidxlen, hidx⟩ := List.mem_iff_getElem.mp hlv
    have hgd : r.levels.getD idx default = lv := by
      rw [List.getD_eq_getElem?_getD, List.getElem?_eq_getElem hidxlen, hidx]
      rfl
    rcases Nat.lt_or_ge (idx + 1) r.levels.length with hi | hi
    · have := hC idx hi
      rw [hgd] at this
      exact this.2.2.2.2.1
    · have hieq : r.levels.length - 1 = idx := by omega
      have := hF
      rw [hieq, hgd] at this
      exact this.2.2.2.2.1
  have hfl := find_level_fresh r.levels target hdocs0
  have hlvne : r.levels ≠ [] := by
    intro hh
    rw [hh] at hlvlen
    simp at hlvlen
    omega
  rcases Nat.eq_zero_or_pos target with ht0 | ht1
  · subst ht0
    have hstay := processLevels_stay r.data 0 r.levels 0 0
      (fun lv _ => by omega)
    have hseek := seek_unfold_start0 r 0 r.levels 0 0 hlvne hfl hstay
    have hsk00 : (r.levels.getLastD default).skipped = 0 := by
      rw [getLastD_eq_getD r.levels default hlvne]
      exact hF.2.2.2.1
    refine ⟨_, r, 0, { r with levels := r.levels }, hout, hprep, ?_,
      by omega, fun i hi => by omega⟩
    rw [hseek, if_pos hsk00]
  · have htN : target < NO_MORE_DOCS := hd target ht
    obtain ⟨suffix, cvF, svF, r0, hruns, hsne, hr01, hr0le, hlast, hsafeF⟩ :=
      processLevels_run skip0 skipn target docs r.data h0 (by omega) hd hN
        htN ht1 r.levels 0 hlvne hC hF (by omega) (Or.inl rfl)
    rw [resumeOff_zero_j, Nat.zero_mul] at hruns
    have hseek := seek_unfold_start0 r target suffix cvF svF hlvne hfl hruns
    rw [stepOf_zero] at hlast hsafeF
    have hbound : (r0 - 1) * skip0 ≤ docs.length := by
      have := entCount_mul_le skip0 skipn docs 0 (r0 - 1) h0 (by omega)
        (by omega)
      rw [stepOf_zero] at this
      exact this
    refine ⟨_, r, (r0 - 1) * skip0, { r with levels := suffix }, hout, hprep,
      ?_, hbound, ?_⟩
    · rw [hseek]
      rw [if_neg (by rw [hlast]; have := Nat.mul_pos hr01 h0; omega)]
      have hval : r0 * skip0 - skip0 = (r0 - 1) * skip0 := by
        rw [Nat.sub_mul, Nat.one_mul]
      rw [hlast, hsk0, hval]
    · intro i hi
      rcases hsafeF with hz | hlt2
      · rw [hz, Nat.zero_mul] at hi
        omega
      · have hidx2 : (r0 - 1) * skip0 - 1 < docs.length := by omega
        have hmono := sorted_getD_le docs hsort i ((r0 - 1) * skip0 - 1)
          (by omega) hidx2
        have hda : dAt docs ((r0 - 1) * skip0)
            = docs.getD ((r0 - 1) * skip0 - 1) 0 := rfl
        rw [hda] at hlt2
        omega

/-- C1, counterexample to the claimed concrete value: on the instance
`skip_0 = 2`, `skip_n = 2` with the sixteen document ids `0 .. 15`,
`seek(10)` on the freshly loaded reader returns the skip count 10 (the
conservative resume point two entries before the first doc at or above
the target is `12 - skip_0 = 10`), not the 8 claimed by the spec. -/
theorem c1_counterexample :
    skip_reader.seek concReader 10 = some (10, concAfter10) ∧
    ¬ skip_reader.seek concReader 10 = some (8, concAfter10) := by
  constructor
  · decide
  · decide

/-- C1, witness: the amended round-trip theorem applied to the concrete
instance `skip_0 = 2`, `skip_n = 2`, document ids `0 .. 15`, target 10. -/
theorem c1_witness :
    ∃ out r s r2,
      writeSkipList 2 2 concDocs = some out ∧
      skip_reader.prepare 2 2 out = .ok r ∧
      skip_reader.seek r 10 = some (s, r2) ∧
      s ≤ concDocs.length ∧
      ∀ i, i < s → concDocs.getD i 0 < 10 :=
  c1_round_trip 2 2 10 concDocs (by decide) (by decide) (by decide)
    (by decide) (by decide) (by decide) (by decide)
